import Mathlib

/-!
Verification of the prerelease sample-reconciliation tool
(`build/ci/prerelease/update-samples.py`).

The script is embedded shallowly:

* XML element trees (`xml.etree.ElementTree`) become the inductive `Xml`;
  attribute dictionaries become association lists with Python-dict semantics
  (`attrGet` / `attrSet` / `attrPop`).
* File system and network are passed in as values: the parsed sample
  projects as `List (Option Xml)` (`none` = `ET.ParseError`), the parent and
  overlay props files as `Option Xml` (`none` = file absent), and the
  registry as a function.  `mainRun` returns `none` when `main` returns
  without writing, and `some doc` for the element tree written to the
  overlay path.
* Python truthiness of optional strings is `pyTruthy`; `a or b` is `pyOr`.
* Core `String` functions that do not reduce in the kernel are replaced by
  equivalent executable functions over `String.data`.
-/

/-! ### String and Python-semantics primitives -/

/-- Truthiness of a Python value that is either `None` or a string:
truthy iff it is a non-empty string. -/
def pyTruthy : Option String → Bool
  | none => false
  | some s => s ≠ ""

/-- Python `a or b` for `None`-or-string values. -/
def pyOr (a b : Option String) : Option String :=
  if pyTruthy a then a else b

/-- Split a character list at every occurrence of `sep`
(the semantics of Python `str.split` with a one-character separator). -/
def splitOnChar (sep : Char) : List Char → List (List Char)
  | [] => [[]]
  | c :: cs =>
    let rest := splitOnChar sep cs
    if c = sep then [] :: rest
    else
      match rest with
      | [] => [[c]]
      | r :: rs => (c :: r) :: rs

/-- Python `s.split(",")`. -/
def splitCsv (s : String) : List String :=
  (splitOnChar ',' s.data).map String.mk

/-- `listIsPfx p l` iff `p` is an initial segment of `l`. -/
def listIsPfx : List Char → List Char → Bool
  | [], _ => true
  | _ :: _, [] => false
  | a :: as, b :: bs => a = b && listIsPfx as bs

/-- Python `s.startswith(pat)`. -/
def strStartsWith (s pat : String) : Bool :=
  listIsPfx pat.data s.data

/-- `listSub pat l` iff `pat` occurs as a contiguous sublist of `l`. -/
def listSub (pat : List Char) : List Char → Bool
  | [] => listIsPfx pat []
  | l@(_ :: rest) => listIsPfx pat l || listSub pat rest

/-- Python `pat in s` (substring test) for non-empty `pat`. -/
def strContains (s pat : String) : Bool :=
  listSub pat.data s.data

/-- ASCII lowering of one character (package identifiers are ASCII). -/
def charLower (c : Char) : Char :=
  if 'A' ≤ c ∧ c ≤ 'Z' then Char.ofNat (c.toNat + 32) else c

/-- Python `s.lower()` restricted to ASCII input. -/
def pyLower (s : String) : String :=
  String.mk (s.data.map charLower)

/-- Lexicographic comparison by code point, the order Python `sorted`
uses on strings. -/
def strLe (a b : String) : Bool :=
  go a.data b.data
where
  go : List Char → List Char → Bool
  | [], _ => true
  | _ :: _, [] => false
  | c :: cs, d :: ds => if c = d then go cs ds else decide (c < d)

/-- Python `sorted` on a list of strings. -/
def pySorted (l : List String) : List String :=
  List.insertionSort (fun a b => strLe a b = true) l

/-! ### XML element trees and attribute dictionaries -/

mutual
/-- An `xml.etree.ElementTree` element: tag, attribute dictionary
(in insertion order, as in Python 3.7+), children. -/
inductive Xml where
  | elem (tag : String) (attrs : List (String × String)) (kids : XmlList)
/-- Children of an element (a mutual list so that recursion over the
tree stays structural and kernel-reducible). -/
inductive XmlList where
  | nil
  | cons (x : Xml) (xs : XmlList)
end

def Xml.tag : Xml → String
  | .elem t _ _ => t

def Xml.attrs : Xml → List (String × String)
  | .elem _ a _ => a

def Xml.kids : Xml → XmlList
  | .elem _ _ k => k

def XmlList.toList : XmlList → List Xml
  | .nil => []
  | .cons x xs => x :: xs.toList

def XmlList.ofList : List Xml → XmlList
  | [] => .nil
  | x :: xs => .cons x (XmlList.ofList xs)

/-- The children of an element, as an ordinary list. -/
def Xml.children (x : Xml) : List Xml := x.kids.toList

/-- `d.get(k)` on an attribute dictionary. -/
def attrGet (a : List (String × String)) (k : String) : Option String :=
  match a with
  | [] => none
  | (k', v) :: rest => if k' = k then some v else attrGet rest k

/-- `d[k] = v` on an attribute dictionary: update in place if the key is
present (keys are unique in a Python dict, so replacing the first
occurrence is exact), otherwise append at the end. -/
def attrSet (a : List (String × String)) (k v : String) : List (String × String) :=
  match a with
  | [] => [(k, v)]
  | (k', v') :: rest => if k' = k then (k, v) :: rest else (k', v') :: attrSet rest k v

/-- `d.pop(k, None)` on an attribute dictionary: removes every binding of
`k` (a Python dict holds at most one). -/
def attrPop (a : List (String × String)) (k : String) : List (String × String) :=
  a.filter (fun p => p.1 ≠ k)

mutual
/-- `root.findall(".//" + tag)`: all proper descendants with the given
tag, in document order. -/
def findallDesc (tag : String) : Xml → List Xml
  | .elem _ _ cs => findallDescL tag cs

def findallDescL (tag : String) : XmlList → List Xml
  | .nil => []
  | .cons c cs =>
    (if Xml.tag c = tag then [c] else []) ++ findallDesc tag c ++ findallDescL tag cs
end

/-! ### The source embedding: `update-samples.py` -/

/-- `ns_of(tag)` (lines 7-9): the namespace of a qualified tag, i.e. the
match of the regex `^\x7b([^\x7d]+)\x7d` without the braces. -/
def ns_of (tag : String) : Option String :=
  match tag.data with
  | c :: rest =>
    if c = '\x7b' then
      let inner := rest.takeWhile (fun d => d ≠ '\x7d')
      if inner ≠ [] ∧ inner.length < rest.length then some (String.mk inner) else none
    else none
  | [] => none

/-- `q(ns, name)` (line 11): re-qualify a local name with a namespace. -/
def q (ns : Option String) (name : String) : String :=
  match ns with
  | some n => "\x7b" ++ n ++ "\x7d" ++ name
  | none => name

/-- `read_coven_refs(csproj_path, prefix)` (lines 16-27): identifiers of
`PackageReference` nodes (attribute `Include` or `Update`) matching the
managed identifier prefix `pfx`; an unparsable project yields the empty
set.  Returned as a list; only membership is ever used. -/
def read_coven_refs (parsed : Option Xml) (pfx : String) : List String :=
  match parsed with
  | none => []
  | some root =>
    let ns := ns_of root.tag
    (findallDesc (q ns "PackageReference") root).filterMap fun pr =>
      match pyOr (attrGet pr.attrs "Include") (attrGet pr.attrs "Update") with
      | some s => if s ≠ "" ∧ strStartsWith s pfx then some s else none
      | none => none

/-- `read_defined_ids(props_path)` (lines 29-40): identifiers having a
`PackageVersion` entry anywhere in the given props file (`Include` and
`Update` attributes both count); empty if the file does not exist. -/
def read_defined_ids (props : Option Xml) : List String :=
  match props with
  | none => []
  | some root =>
    let ns := ns_of root.tag
    (findallDesc (q ns "PackageVersion") root).flatMap fun pv =>
      (match attrGet pv.attrs "Include" with
       | some s => if s ≠ "" then [s] else []
       | none => []) ++
      (match attrGet pv.attrs "Update" with
       | some s => if s ≠ "" then [s] else []
       | none => [])

/-- Outcome of the one HTTP fetch inside `nuget_latest_version`. -/
inductive Fetch where
  /-- `HTTPError`, `URLError` or `TimeoutError` raised by the request. -/
  | transportError
  /-- The request succeeded but the body is rejected by `r.read().decode`
  or `json.loads`, or the parsed JSON is not an object: the raised
  exception is NOT in the `except` clause of lines 48-49. -/
  | malformed
  /-- A JSON object was obtained; `versions` is the value of its
  `"versions"` key (`none` if the key is absent or null). -/
  | ok (versions : Option (List String))
deriving DecidableEq

/-- A Python exception escaping to the caller. -/
inductive PyExn where
  | decodeError
deriving DecidableEq

/-- `nuget_latest_version(id_lower, prefer_stable)` (lines 42-54).
`Except.error` models an exception propagating to the caller. -/
def nuget_latest_version (fetch : Fetch) (prefer_stable : Bool) :
    Except PyExn (Option String) :=
  match fetch with
  | .transportError => .ok none
  | .malformed => .error .decodeError
  | .ok vs =>
    let versions := vs.getD []
    if prefer_stable then
      let stables := versions.filter (fun v => !(strContains v "-"))
      match stables.getLast? with
      | some s => .ok (some s)
      | none => .ok versions.getLast?
    else .ok versions.getLast?

/-- The registry function induced by per-identifier fetch outcomes, on
runs in which no lookup raises (an `error` outcome would abort `main`,
which never happens for `transportError`/`ok` fetches). -/
def nvOf (fetch : String → Fetch) : String → Bool → Option String :=
  fun idl ps =>
    match nuget_latest_version (fetch idl) ps with
    | .ok v => v
    | .error _ => none

/-- The `Project` attribute of the import the script inserts (line 66). -/
def parent_import_project : String :=
  "$([MSBuild]::GetPathOfFileAbove(\x27Directory.Packages.props\x27,\x27$(MSBuildThisFileDirectory)..\x27))"

/-- The `Import` element built at lines 64-66. -/
def parent_import_node (ns : Option String) : Xml :=
  Xml.elem (q ns "Import") [("Project", parent_import_project)] XmlList.nil

/-- The membership test of lines 59-62: some direct child is an `Import`
whose `Project` attribute mentions `GetPathOfFileAbove`. -/
def has_parent_import (ns : Option String) (root : Xml) : Bool :=
  root.children.any fun e =>
    Xml.tag e == q ns "Import" &&
      strContains ((attrGet e.attrs "Project").getD "") "GetPathOfFileAbove"

/-- `ensure_parent_import_first(root)` (lines 56-67): insert the
parent import as the first child unless a matching one already exists. -/
def ensure_parent_import_first (root : Xml) : Xml :=
  let ns := ns_of root.tag
  if has_parent_import ns root then root
  else Xml.elem root.tag root.attrs (XmlList.ofList (parent_import_node ns :: root.children))

/-- `changed` (line 81): the comma-separated `--ids` argument as a set of
non-empty identifiers. -/
structure Args where
  /-- `--ids`: CSV of changed package identifiers. -/
  ids : String
  /-- `--version`: the prerelease version for changed identifiers. -/
  version : String
  /-- The managed identifier prefix (the `--prefix` argument,
  default `"Coven."`). -/
  pfx : String
  /-- `--allow-prerelease-fallback`. -/
  allow_prerelease_fallback : Bool

def changedOf (args : Args) : List String :=
  (splitCsv args.ids).filter (fun s => s ≠ "")

/-- `needed` (lines 86-88): union of managed references over all sample
projects, as a list with membership semantics. -/
def neededOf (pfx : String) (samples : List (Option Xml)) : List String :=
  samples.flatMap fun p => read_coven_refs p pfx

/-- `sorted(needed)` (line 134): the distinct needed identifiers in the
order Python sorts strings. -/
def pidsOf (pfx : String) (samples : List (Option Xml)) : List String :=
  pySorted (neededOf pfx samples).dedup

/-- The key under which a `PackageVersion` node is registered in the
`existing` dictionary (line 117): `attrib.get('Update') or
attrib.get('Include')`. -/
def keyOf (a : List (String × String)) : Option String :=
  pyOr (attrGet a "Update") (attrGet a "Include")

/-- The `existing` dictionary of lines 115-118, mapping each truthy key of
a direct `PackageVersion` child of the item group to the index of that
child (later children override earlier ones, as repeated dict assignment
does); represented so that `List.lookup` returns the surviving binding. -/
def buildExisting (ns : Option String) (children : List Xml) :
    List (String × Nat) :=
  (children.enum.filterMap fun p =>
    if Xml.tag p.2 = q ns "PackageVersion" then
      match keyOf p.2.attrs with
      | some k => if k ≠ "" then some (k, p.1) else none
      | none => none
    else none).reverse

/-- Lines 128-131: query nuget preferring stable, then optionally fall
back to any stability. -/
def registry_try (nv : String → Bool → Option String) (fallback : Bool)
    (pid : String) : Option String :=
  let v := nv (pyLower pid) true
  if ¬ pyTruthy v ∧ fallback then nv (pyLower pid) false else v

/-- `desired_version(pid)` (lines 120-131).  `node` is `existing.get(pid)`
at call time, `nv` is `nuget_latest_version` over current registry data. -/
def desired_version (changed : List String) (prerelease : String)
    (nv : String → Bool → Option String) (fallback : Bool)
    (node : Option Xml) (pid : String) : Option String :=
  if pid ∈ changed then some prerelease
  else
    match node with
    | some n =>
      if pyTruthy (attrGet n.attrs "Version") then attrGet n.attrs "Version"
      else registry_try nv fallback pid
    | none => registry_try nv fallback pid

/-- The in-place mutation of an existing node (lines 149-155): flip
`Include` to `Update` when the parent defines the identifier, then set
`Version`. -/
def updNode (parent_defined : List String) (pid : String) (n : Xml) (v : String) : Xml :=
  let n1 :=
    if (attrGet n.attrs "Include").isSome ∧ pid ∈ parent_defined then
      Xml.elem n.tag (attrSet (attrPop n.attrs "Include") "Update" pid) n.kids
    else n
  Xml.elem n1.tag (attrSet n1.attrs "Version" v) n1.kids

/-- The brand-new pin of lines 141-148: `Update` if the parent or the
overlay already define the identifier, else `Include`. -/
def insNode (ns : Option String) (parent_defined overlay_defined : List String)
    (pid v : String) : Xml :=
  Xml.elem (q ns "PackageVersion")
    (if pid ∈ parent_defined ∨ pid ∈ overlay_defined then
        [("Update", pid), ("Version", v)]
      else
        [("Include", pid), ("Version", v)])
    XmlList.nil

/-- `existing.get(pid)` on a loop state: the node the threaded `existing`
dictionary associates to identifier `pid`. -/
def nodeOf (st : List Xml × List (String × Nat)) (p : String) : Option Xml :=
  (st.2.lookup p).bind fun i => st.1.get? i

/-- One iteration of the upsert loop (lines 134-155) over the state
(item-group children, `existing` dictionary).  Updates mutate the node in
place (preserving its position), inserts append (`ET.SubElement`) and
register the new node in `existing`.  `existing` stores indices into the
children list; both are valid simultaneously because updates keep
positions and inserts go at the end.  Under the loop invariant a
registered index always points at a node, so the catch-all arm (an index
without a node) is unreachable. -/
def upsertStep (ns : Option String) (changed : List String) (prerelease : String)
    (nv : String → Bool → Option String) (fallback : Bool)
    (parent_defined overlay_defined : List String)
    (st : List Xml × List (String × Nat)) (pid : String) :
    List Xml × List (String × Nat) :=
  let node := nodeOf st pid
  let ver := desired_version changed prerelease nv fallback node pid
  if pyTruthy ver then
    match st.2.lookup pid, node with
    | some i, some n => (st.1.set i (updNode parent_defined pid n (ver.getD "")), st.2)
    | _, _ =>
      (st.1 ++ [insNode ns parent_defined overlay_defined pid (ver.getD "")],
        (pid, st.1.length) :: st.2)
  else st

/-- The fresh root of line 98 when the overlay file does not exist. -/
def emptyRoot : Xml := Xml.elem "Project" [] XmlList.nil

/-- Index of the first element satisfying a predicate (the `for ... break`
idiom of line 107). -/
def firstIdx {α : Type _} (p : α → Bool) : List α → Option Nat
  | [] => none
  | a :: l => if p a then some 0 else (firstIdx p l).map (· + 1)

/-- Index of the item group the script uses (lines 106-108): the first
direct child tagged `ItemGroup`; when there is none a fresh one is
appended, landing at index `rcs.length`. -/
def igSlot (ns : Option String) (rcs : List Xml) : Nat :=
  (firstIdx (fun c => Xml.tag c == q ns "ItemGroup") rcs).getD rcs.length

/-- The root children after lines 106-108: unchanged when an `ItemGroup`
exists, else with a fresh empty one appended (`ET.SubElement(root, ...)`). -/
def withIg (ns : Option String) (rcs : List Xml) : List Xml :=
  if (firstIdx (fun c => Xml.tag c == q ns "ItemGroup") rcs).isSome then rcs
  else rcs ++ [Xml.elem (q ns "ItemGroup") [] XmlList.nil]

/-- The item group `ig` selected at lines 106-108. -/
def igOf (ns : Option String) (rcs : List Xml) : Xml :=
  ((withIg ns rcs).get? (igSlot ns rcs)).getD (Xml.elem (q ns "ItemGroup") [] XmlList.nil)

/-- `main()` (lines 69-157) for one run, with all effects made explicit:
`nv` is `nuget_latest_version` over the current registry data, `samples`
the parsed sample projects (`none` = `ET.ParseError`), `root_props` and
`overlay` the parsed parent and overlay props files (`none` = absent).
Returns `none` when main returns at line 92 without writing, otherwise
`some` of the element tree written to the overlay path at line 157. -/
def mainRun (args : Args) (nv : String → Bool → Option String)
    (samples : List (Option Xml)) (root_props overlay : Option Xml) : Option Xml :=
  let changed := changedOf args
  let needed := neededOf args.pfx samples
  if needed = [] ∧ changed = [] then none
  else
    let root0 := overlay.getD emptyRoot
    let root1 := ensure_parent_import_first root0
    let ns := ns_of root1.tag
    let rcs := root1.children
    let ig := igOf ns rcs
    let parent_defined := read_defined_ids root_props
    let overlay_defined := read_defined_ids overlay
    let st0 := (ig.children, buildExisting ns ig.children)
    let stF := (pidsOf args.pfx samples).foldl
      (upsertStep ns changed args.version nv args.allow_prerelease_fallback
        parent_defined overlay_defined) st0
    some (Xml.elem root1.tag root1.attrs
      (XmlList.ofList ((withIg ns rcs).set (igSlot ns rcs)
        (Xml.elem ig.tag ig.attrs (XmlList.ofList stF.1)))))

/-- The version pin the document model tracks for an identifier: the
surviving `existing`-dictionary entry over the first item group's direct
`PackageVersion` children. -/
def docPin (doc : Xml) (pid : String) : Option Xml :=
  let ns := ns_of doc.tag
  let ig := igOf ns doc.children
  ((buildExisting ns ig.children).lookup pid).bind fun i => ig.children.get? i

/-- The overlay pin before a run, for an overlay input that may be an
absent file. -/
def docPinO (overlay : Option Xml) (pid : String) : Option Xml :=
  docPin (overlay.getD emptyRoot) pid

/-! ### Serialization (`tree.write`, line 157)

`ElementTree.write` is a deterministic function of the element tree
(tags, attributes in insertion order, children in order); two equal trees
produce byte-identical files.  `write_doc` is an executable stand-in with
exactly that dependency structure. -/

def serializeAttrs : List (String × String) → String
  | [] => ""
  | (k, v) :: rest => " " ++ k ++ "=" ++ "\"" ++ v ++ "\"" ++ serializeAttrs rest

mutual
def serialize : Xml → String
  | .elem t a cs => "<" ++ t ++ serializeAttrs a ++ ">" ++ serializeL cs ++ "</" ++ t ++ ">"

def serializeL : XmlList → String
  | .nil => ""
  | .cons x xs => serialize x ++ serializeL xs
end

/-- The bytes written at line 157 (`encoding="utf-8"`,
`xml_declaration=True`), as a function of the element tree. -/
def write_doc (root : Xml) : String :=
  "<?xml version=" ++ "\x271.0\x27 encoding=\x27utf-8\x27?>" ++ serialize root

/-! ### Proof infrastructure -/

theorem XmlList.toList_ofList (l : List Xml) : (XmlList.ofList l).toList = l := by
  induction l with
  | nil => rfl
  | cons x xs ih => simp [XmlList.ofList, XmlList.toList, ih]

theorem Xml.eta (x : Xml) : Xml.elem x.tag x.attrs x.kids = x := by
  cases x; rfl

theorem Xml.children_mk (t : String) (a : List (String × String)) (l : List Xml) :
    (Xml.elem t a (XmlList.ofList l)).children = l := by
  simp [Xml.children, Xml.kids, XmlList.toList_ofList]

theorem attrGet_attrSet_self (a : List (String × String)) (k v : String) :
    attrGet (attrSet a k v) k = some v := by
  induction a with
  | nil => simp [attrSet, attrGet]
  | cons p rest ih =>
    obtain ⟨k', v'⟩ := p
    by_cases h : k' = k <;> simp [attrSet, attrGet, h, ih]

theorem attrGet_attrSet_ne (a : List (String × String)) (k v k' : String) (h : k' ≠ k) :
    attrGet (attrSet a k v) k' = attrGet a k' := by
  have h' : ¬ (k = k') := fun hh => h hh.symm
  induction a with
  | nil => simp [attrSet, attrGet, h']
  | cons p rest ih =>
    obtain ⟨k'', v''⟩ := p
    by_cases h1 : k'' = k
    · subst h1
      simp [attrSet, attrGet, h', Ne.symm h]
    · by_cases h2 : k'' = k' <;> simp [attrSet, attrGet, h, h1, h2, ih]

theorem attrSet_of_attrGet (a : List (String × String)) (k v : String)
    (h : attrGet a k = some v) : attrSet a k v = a := by
  induction a with
  | nil => simp [attrGet] at h
  | cons p rest ih =>
    obtain ⟨k', v'⟩ := p
    by_cases h1 : k' = k
    · subst h1
      simp [attrGet] at h
      simp [attrSet, h]
    · simp [attrGet, h1] at h
      simp [attrSet, h1, ih h]

theorem attrGet_attrPop_self (a : List (String × String)) (k : String) :
    attrGet (attrPop a k) k = none := by
  induction a with
  | nil => simp [attrPop, attrGet]
  | cons p rest ih =>
    obtain ⟨k', v'⟩ := p
    by_cases h : k' = k
    · simpa [attrPop, List.filter, h] using ih
    · have : attrPop ((k', v') :: rest) k = (k', v') :: attrPop rest k := by
        simp [attrPop, List.filter, h]
      rw [this]
      simpa [attrGet, h] using ih

theorem attrGet_attrPop_ne (a : List (String × String)) (k k' : String) (h : k' ≠ k) :
    attrGet (attrPop a k) k' = attrGet a k' := by
  induction a with
  | nil => simp [attrPop, attrGet]
  | cons p rest ih =>
    obtain ⟨k'', v''⟩ := p
    by_cases h1 : k'' = k
    · have : attrPop ((k'', v'') :: rest) k = attrPop rest k := by
        simp [attrPop, List.filter, h1]
      rw [this, ih]
      have : ¬ (k'' = k') := by rw [h1]; exact fun hh => h hh.symm
      simp [attrGet, this]
    · have : attrPop ((k'', v'') :: rest) k = (k'', v'') :: attrPop rest k := by
        simp [attrPop, List.filter, h1]
      rw [this]
      by_cases h2 : k'' = k' <;> simp [attrGet, h2, ih]

theorem list_set_of_get? {α : Type _} (l : List α) (i : Nat) (a : α)
    (h : l.get? i = some a) : l.set i a = l := by
  induction l generalizing i with
  | nil => simp [List.get?] at h
  | cons x xs ih =>
    cases i with
    | zero =>
      simp [List.get?] at h
      simp [h]
    | succ j =>
      simp [List.get?] at h
      simp [List.set]
      exact ih j (by simpa [List.get?] using h)

/-- The key under which a child is registered in the `existing` dictionary,
if any: the node must be tagged `PackageVersion` and have a truthy key. -/
def pinKeyAt (ns : Option String) (c : Xml) : Option String :=
  if Xml.tag c = q ns "PackageVersion" then
    match keyOf c.attrs with
    | some k => if k ≠ "" then some k else none
    | none => none
  else none

/-- Index of the last child registered under key `p`: the binding that
survives in the `existing` dictionary. -/
def lastKeyIdx (ns : Option String) (p : String) : List Xml → Option Nat
  | [] => none
  | c :: cs =>
    match lastKeyIdx ns p cs with
    | some i => some (i + 1)
    | none => if pinKeyAt ns c = some p then some 0 else none

theorem lookup_append {β : Type _} (l1 l2 : List (String × β)) (k : String) :
    (l1 ++ l2).lookup k = (l1.lookup k).or (l2.lookup k) := by
  induction l1 with
  | nil => simp [List.lookup]
  | cons p rest ih =>
    obtain ⟨k', v'⟩ := p
    simp only [List.cons_append, List.lookup]
    cases k == k' <;> simp [ih]

theorem buildExisting_eq (ns : Option String) (cs : List Xml) :
    buildExisting ns cs
      = (cs.enum.filterMap fun pr => (pinKeyAt ns pr.2).map fun k => (k, pr.1)).reverse := by
  unfold buildExisting
  congr 1
  apply List.filterMap_congr
  intro pr _
  simp only [pinKeyAt]
  by_cases h : Xml.tag pr.2 = q ns "PackageVersion"
  · simp only [h, if_true]
    cases keyOf pr.2.attrs with
    | none => simp
    | some k => by_cases hk : k = "" <;> simp [hk]
  · simp [h]

theorem enumFrom_lookup (ns : Option String) (p : String) (cs : List Xml) (n : Nat) :
    (((List.enumFrom n cs).filterMap fun pr =>
        (pinKeyAt ns pr.2).map fun k => (k, pr.1)).reverse).lookup p
      = (lastKeyIdx ns p cs).map (· + n) := by
  induction cs generalizing n with
  | nil => simp [lastKeyIdx, List.lookup]
  | cons c cs ih =>
    rw [List.enumFrom_cons, List.filterMap_cons]
    cases hpk : pinKeyAt ns c with
    | none =>
      simp only [Option.map_none']
      rw [ih (n + 1)]
      cases hl : lastKeyIdx ns p cs with
      | none => simp [lastKeyIdx, hl, hpk]
      | some i =>
        simp only [lastKeyIdx, hl, Option.map_some']
        congr 1
        omega
    | some k =>
      simp only [Option.map_some', List.reverse_cons]
      rw [lookup_append, ih (n + 1)]
      cases hl : lastKeyIdx ns p cs with
      | some i =>
        simp only [lastKeyIdx, hl, Option.map_some', Option.or_some]
        congr 1
        omega
      | none =>
        by_cases hkp : k = p
        · subst hkp
          simp [lastKeyIdx, hl, hpk, List.lookup]
        · have : (p == k) = false := by
            simp [Ne.symm hkp]
          simp [lastKeyIdx, hl, hpk, List.lookup, this, hkp]

theorem buildExisting_lookup (ns : Option String) (cs : List Xml) (p : String) :
    (buildExisting ns cs).lookup p = lastKeyIdx ns p cs := by
  rw [buildExisting_eq]
  have h := enumFrom_lookup ns p cs 0
  rw [List.enum_eq_enumFrom] at *
  rw [h]
  cases lastKeyIdx ns p cs <;> simp

theorem lastKeyIdx_get (ns : Option String) (p : String) (cs : List Xml) (i : Nat)
    (h : lastKeyIdx ns p cs = some i) :
    i < cs.length ∧ ∃ n, cs.get? i = some n ∧ pinKeyAt ns n = some p := by
  induction cs generalizing i with
  | nil => simp [lastKeyIdx] at h
  | cons c cs ih =>
    simp only [lastKeyIdx] at h
    cases hl : lastKeyIdx ns p cs with
    | some j =>
      rw [hl] at h
      obtain rfl : j + 1 = i := by simpa using h
      obtain ⟨hlt, n, hg, hk⟩ := ih j hl
      exact ⟨by simpa using Nat.succ_lt_succ hlt, n, by simpa [List.get?] using hg, hk⟩
    | none =>
      rw [hl] at h
      by_cases hc : pinKeyAt ns c = some p
      · rw [if_pos hc] at h
        obtain rfl : (0 : Nat) = i := by simpa using h
        exact ⟨by simp, c, by simp [List.get?], hc⟩
      · simp [hc] at h

theorem lastKeyIdx_inj (ns : Option String) (p p' : String) (cs : List Xml) (i : Nat)
    (h1 : lastKeyIdx ns p cs = some i) (h2 : lastKeyIdx ns p' cs = some i) : p = p' := by
  obtain ⟨-, n, hg, hk⟩ := lastKeyIdx_get ns p cs i h1
  obtain ⟨-, n', hg', hk'⟩ := lastKeyIdx_get ns p' cs i h2
  rw [hg] at hg'
  obtain rfl : n = n' := by simpa using hg'
  rw [hk] at hk'
  simpa using hk'

theorem lastKeyIdx_set (ns : Option String) (p : String) (cs : List Xml) (j : Nat)
    (m n' : Xml) (hj : cs.get? j = some m) (hk : pinKeyAt ns n' = pinKeyAt ns m) :
    lastKeyIdx ns p (cs.set j n') = lastKeyIdx ns p cs := by
  induction cs generalizing j with
  | nil => simp [List.get?] at hj
  | cons c cs ih =>
    cases j with
    | zero =>
      obtain rfl : c = m := by simpa [List.get?] using hj
      simp [List.set, lastKeyIdx, hk]
    | succ j' =>
      have hj' : cs.get? j' = some m := by simpa [List.get?] using hj
      simp [List.set, lastKeyIdx, ih j' hj']

theorem lastKeyIdx_append (ns : Option String) (p : String) (cs : List Xml) (n : Xml) :
    lastKeyIdx ns p (cs ++ [n])
      = if pinKeyAt ns n = some p then some cs.length else lastKeyIdx ns p cs := by
  induction cs with
  | nil => simp [lastKeyIdx]
  | cons c cs ih =>
    have hstep : lastKeyIdx ns p ((c :: cs) ++ [n])
        = match lastKeyIdx ns p (cs ++ [n]) with
          | some i => some (i + 1)
          | none => if pinKeyAt ns c = some p then some 0 else none := rfl
    rw [hstep, ih]
    by_cases hn : pinKeyAt ns n = some p
    · simp [hn]
    · simp only [hn, if_false]
      rfl

theorem list_get?_set_ne {α : Type _} (l : List α) (i j : Nat) (a : α) (h : i ≠ j) :
    (l.set i a).get? j = l.get? j := by
  induction l generalizing i j with
  | nil => simp [List.set]
  | cons x xs ih =>
    cases i with
    | zero =>
      cases j with
      | zero => exact absurd rfl h
      | succ j' => simp [List.set, List.get?]
    | succ i' =>
      cases j with
      | zero => simp [List.set, List.get?]
      | succ j' =>
        simp only [List.set, List.get?]
        exact ih i' j' fun hh => h (by rw [hh])

theorem list_get?_set_eq {α : Type _} (l : List α) (i : Nat) (a : α) (h : i < l.length) :
    (l.set i a).get? i = some a := by
  induction l generalizing i with
  | nil => simp at h
  | cons x xs ih =>
    cases i with
    | zero => simp [List.set, List.get?]
    | succ i' =>
      simp only [List.set, List.get?]
      exact ih i' (by simpa using h)

theorem list_get?_append_left {α : Type _} (l l' : List α) (j : Nat) (h : j < l.length) :
    (l ++ l').get? j = l.get? j := by
  induction l generalizing j with
  | nil => simp at h
  | cons x xs ih =>
    cases j with
    | zero => simp [List.get?]
    | succ j' =>
      simp only [List.cons_append, List.get?]
      exact ih j' (by simpa using h)

theorem list_get?_append_right {α : Type _} (l : List α) (a : α) :
    (l ++ [a]).get? l.length = some a := by
  induction l with
  | nil => simp [List.get?]
  | cons x xs ih =>
    rw [List.cons_append]
    show (xs ++ [a]).get? xs.length = some a
    exact ih

/-! ### Properties of the node transformers -/

theorem keyOf_attrSet_version (a : List (String × String)) (v : String) :
    keyOf (attrSet a "Version" v) = keyOf a := by
  unfold keyOf
  rw [attrGet_attrSet_ne a "Version" v "Update" (by decide),
    attrGet_attrSet_ne a "Version" v "Include" (by decide)]

theorem pinKeyAt_some_elim (ns : Option String) (n : Xml) (k : String)
    (h : pinKeyAt ns n = some k) :
    n.tag = q ns "PackageVersion" ∧ keyOf n.attrs = some k ∧ k ≠ "" := by
  unfold pinKeyAt at h
  split at h
  case isTrue ht =>
    cases hk : keyOf n.attrs with
    | none => rw [hk] at h; exact Option.noConfusion h
    | some k' =>
      rw [hk] at h
      simp only [ne_eq] at h
      split at h
      case isTrue hne =>
        obtain rfl := Option.some.inj h
        exact ⟨ht, rfl, hne⟩
      case isFalse => exact Option.noConfusion h
  case isFalse => exact Option.noConfusion h

theorem pinKeyAt_some_intro (ns : Option String) (n : Xml) (k : String)
    (ht : n.tag = q ns "PackageVersion") (hk : keyOf n.attrs = some k)
    (hne : k ≠ "") : pinKeyAt ns n = some k := by
  unfold pinKeyAt
  rw [if_pos ht, hk]
  simp [hne]

theorem updNode_tag (pd : List String) (pid : String) (n : Xml) (v : String) :
    (updNode pd pid n v).tag = n.tag := by
  unfold updNode
  by_cases h : (attrGet n.attrs "Include").isSome ∧ pid ∈ pd <;> simp [h, Xml.tag]

theorem updNode_kids (pd : List String) (pid : String) (n : Xml) (v : String) :
    (updNode pd pid n v).kids = n.kids := by
  unfold updNode
  by_cases h : (attrGet n.attrs "Include").isSome ∧ pid ∈ pd <;> simp [h, Xml.kids]

theorem updNode_version (pd : List String) (pid : String) (n : Xml) (v : String) :
    attrGet (updNode pd pid n v).attrs "Version" = some v := by
  unfold updNode
  by_cases h : (attrGet n.attrs "Include").isSome ∧ pid ∈ pd <;>
    simp [h, Xml.attrs, attrGet_attrSet_self]

theorem keyOf_updNode (pd : List String) (pid : String) (n : Xml) (v : String)
    (hk : keyOf n.attrs = some pid) (hp : pid ≠ "") :
    keyOf (updNode pd pid n v).attrs = some pid := by
  unfold updNode
  by_cases h : (attrGet n.attrs "Include").isSome ∧ pid ∈ pd
  · rw [if_pos h]
    simp only [Xml.attrs]
    rw [keyOf_attrSet_version]
    unfold keyOf
    rw [attrGet_attrSet_self]
    simp [pyOr, pyTruthy, hp]
  · rw [if_neg h]
    simp only [Xml.attrs]
    rw [keyOf_attrSet_version]
    exact hk

theorem pinKeyAt_updNode (ns : Option String) (pd : List String) (pid : String)
    (n : Xml) (v : String) (h : pinKeyAt ns n = some pid) :
    pinKeyAt ns (updNode pd pid n v) = some pid := by
  obtain ⟨ht, hk, hp⟩ := pinKeyAt_some_elim ns n pid h
  exact pinKeyAt_some_intro ns _ pid (by rw [updNode_tag, ht])
    (keyOf_updNode pd pid n v hk hp) hp

theorem insNode_version (ns : Option String) (pd od : List String) (pid v : String) :
    attrGet (insNode ns pd od pid v).attrs "Version" = some v := by
  unfold insNode
  by_cases h : pid ∈ pd ∨ pid ∈ od <;> simp [h, Xml.attrs, attrGet]

theorem pinKeyAt_insNode (ns : Option String) (pd od : List String) (pid v : String)
    (hp : pid ≠ "") :
    pinKeyAt ns (insNode ns pd od pid v) = some pid := by
  refine pinKeyAt_some_intro ns _ pid rfl ?_ hp
  unfold insNode keyOf
  by_cases h : pid ∈ pd ∨ pid ∈ od <;>
    simp [h, Xml.attrs, attrGet, pyOr, pyTruthy, hp]

/-! ### The upsert loop invariant -/

/-- The loop invariant: the threaded `existing` dictionary associates each
key to the index of the last registered child with that key, which is how
it is built at lines 115-118 and kept by updates (positions and keys are
preserved) and inserts (appended with the fresh key). -/
def DictInv (ns : Option String) (st : List Xml × List (String × Nat)) : Prop :=
  ∀ p, st.2.lookup p = lastKeyIdx ns p st.1

theorem dictInv_init (ns : Option String) (cs : List Xml) :
    DictInv ns (cs, buildExisting ns cs) :=
  fun p => buildExisting_lookup ns cs p

/-- What the loop leaves as the tracked node for the processed identifier:
unchanged when the resolved version is falsy, otherwise the updated or
freshly inserted pin. -/
def postNode (ns : Option String) (changed : List String) (prerelease : String)
    (nv : String → Bool → Option String) (fallback : Bool)
    (parent_defined overlay_defined : List String) (pid : String)
    (n? : Option Xml) : Option Xml :=
  let ver := desired_version changed prerelease nv fallback n? pid
  if pyTruthy ver then
    match n? with
    | some n => some (updNode parent_defined pid n (ver.getD ""))
    | none => some (insNode ns parent_defined overlay_defined pid (ver.getD ""))
  else n?

section Loop

variable {ns : Option String} {changed : List String} {prerelease : String}
  {nv : String → Bool → Option String} {fallback : Bool}
  {parent_defined overlay_defined : List String}
  {st : List Xml × List (String × Nat)} {pid : String}

theorem upsertStep_skip
    (h : pyTruthy (desired_version changed prerelease nv fallback (nodeOf st pid) pid) = false) :
    upsertStep ns changed prerelease nv fallback parent_defined overlay_defined st pid = st := by
  simp only [upsertStep, h, Bool.false_eq_true, if_false]

theorem upsertStep_update {i : Nat} {n : Xml}
    (h1 : st.2.lookup pid = some i) (h2 : st.1.get? i = some n)
    (hv : pyTruthy (desired_version changed prerelease nv fallback (some n) pid) = true) :
    upsertStep ns changed prerelease nv fallback parent_defined overlay_defined st pid
      = (st.1.set i (updNode parent_defined pid n
          ((desired_version changed prerelease nv fallback (some n) pid).getD "")), st.2) := by
  have hn : nodeOf st pid = some n := by
    unfold nodeOf
    rw [h1]
    exact h2
  simp only [upsertStep, hn, h1, hv, if_true]

theorem upsertStep_insert
    (h1 : st.2.lookup pid = none)
    (hv : pyTruthy (desired_version changed prerelease nv fallback none pid) = true) :
    upsertStep ns changed prerelease nv fallback parent_defined overlay_defined st pid
      = (st.1 ++ [insNode ns parent_defined overlay_defined pid
          ((desired_version changed prerelease nv fallback none pid).getD "")],
         (pid, st.1.length) :: st.2) := by
  have hn : nodeOf st pid = none := by
    unfold nodeOf
    rw [h1]
    rfl
  simp only [upsertStep, hn, h1, hv, if_true]

theorem lookup_cons_self {β : Type _} (l : List (String × β)) (k : String) (b : β) :
    ((k, b) :: l).lookup k = some b := by
  simp [List.lookup]

theorem lookup_cons_ne {β : Type _} (l : List (String × β)) (k k' : String) (b : β)
    (h : k' ≠ k) : ((k, b) :: l).lookup k' = l.lookup k' := by
  have hb : (k' == k) = false := beq_eq_false_iff_ne.mpr h
  simp [List.lookup, hb]

theorem nodeOf_cases (hInv : DictInv ns st) (pid : String) :
    (st.2.lookup pid = none ∧ nodeOf st pid = none) ∨
    ∃ i n, st.2.lookup pid = some i ∧ st.1.get? i = some n ∧ nodeOf st pid = some n ∧
      i < st.1.length ∧ pinKeyAt ns n = some pid := by
  cases h : st.2.lookup pid with
  | none =>
    refine Or.inl ⟨rfl, ?_⟩
    unfold nodeOf
    rw [h]
    rfl
  | some i =>
    have hx := hInv pid
    rw [h] at hx
    obtain ⟨hlt, n, hg, hk⟩ := lastKeyIdx_get ns pid st.1 i hx.symm
    refine Or.inr ⟨i, n, rfl, hg, ?_, hlt, hk⟩
    unfold nodeOf
    rw [h]
    exact hg

theorem stepInv (hInv : DictInv ns st) (hp : pid ≠ "") :
    DictInv ns (upsertStep ns changed prerelease nv fallback parent_defined overlay_defined st pid) := by
  rcases nodeOf_cases hInv pid with ⟨h1, hn⟩ | ⟨i, n, h1, h2, hn, hlt, hkey⟩
  · cases hv : pyTruthy (desired_version changed prerelease nv fallback none pid) with
    | false =>
      rw [upsertStep_skip (by rw [hn]; exact hv)]
      exact hInv
    | true =>
      rw [upsertStep_insert h1 hv]
      intro p
      by_cases hpp : p = pid
      · subst hpp
        rw [lookup_cons_self, lastKeyIdx_append,
          if_pos (pinKeyAt_insNode ns parent_defined overlay_defined p _ hp)]
      · have hnc : ¬ pinKeyAt ns (insNode ns parent_defined overlay_defined pid
            ((desired_version changed prerelease nv fallback none pid).getD "")) = some p := by
          rw [pinKeyAt_insNode ns parent_defined overlay_defined pid _ hp]
          intro hcontra
          exact hpp (Option.some.inj hcontra).symm
        rw [lookup_cons_ne st.2 pid p _ hpp, hInv p, lastKeyIdx_append, if_neg hnc]
  · cases hv : pyTruthy (desired_version changed prerelease nv fallback (some n) pid) with
    | false =>
      rw [upsertStep_skip (by rw [hn]; exact hv)]
      exact hInv
    | true =>
      rw [upsertStep_update h1 h2 hv]
      intro p
      have hkk : pinKeyAt ns (updNode parent_defined pid n
          ((desired_version changed prerelease nv fallback (some n) pid).getD ""))
            = pinKeyAt ns n := by
        rw [pinKeyAt_updNode ns parent_defined pid n _ hkey, hkey]
      rw [lastKeyIdx_set ns p st.1 i n _ h2 hkk]
      exact hInv p

theorem stepFrame (hInv : DictInv ns st) {p : String} (hne : p ≠ pid) :
    nodeOf (upsertStep ns changed prerelease nv fallback parent_defined overlay_defined st pid) p
      = nodeOf st p := by
  rcases nodeOf_cases hInv pid with ⟨h1, hn⟩ | ⟨i, n, h1, h2, hn, hlt, hkey⟩
  · cases hv : pyTruthy (desired_version changed prerelease nv fallback none pid) with
    | false => rw [upsertStep_skip (by rw [hn]; exact hv)]
    | true =>
      rw [upsertStep_insert h1 hv]
      unfold nodeOf
      rw [lookup_cons_ne st.2 pid p _ hne]
      cases hl : st.2.lookup p with
      | none => rfl
      | some j =>
        have hj := hInv p
        rw [hl] at hj
        obtain ⟨hjlt, m, hg, -⟩ := lastKeyIdx_get ns p st.1 j hj.symm
        show (st.1 ++ [insNode ns parent_defined overlay_defined pid
          ((desired_version changed prerelease nv fallback none pid).getD "")]).get? j
            = st.1.get? j
        exact list_get?_append_left st.1 _ j hjlt
  · cases hv : pyTruthy (desired_version changed prerelease nv fallback (some n) pid) with
    | false => rw [upsertStep_skip (by rw [hn]; exact hv)]
    | true =>
      rw [upsertStep_update h1 h2 hv]
      unfold nodeOf
      cases hl : st.2.lookup p with
      | none => rfl
      | some j =>
        have hij : i ≠ j := by
          intro he
          subst he
          have hp1 := hInv p
          rw [hl] at hp1
          have hp2 := hInv pid
          rw [h1] at hp2
          exact hne (lastKeyIdx_inj ns p pid st.1 i hp1.symm hp2.symm)
        show (st.1.set i (updNode parent_defined pid n
          ((desired_version changed prerelease nv fallback (some n) pid).getD ""))).get? j
            = st.1.get? j
        exact list_get?_set_ne st.1 i j _ hij

theorem step_nodeOf_self (hInv : DictInv ns st) (_hp : pid ≠ "") :
    nodeOf (upsertStep ns changed prerelease nv fallback parent_defined overlay_defined st pid) pid
      = postNode ns changed prerelease nv fallback parent_defined overlay_defined pid
          (nodeOf st pid) := by
  rcases nodeOf_cases hInv pid with ⟨h1, hn⟩ | ⟨i, n, h1, h2, hn, hlt, hkey⟩
  · cases hv : pyTruthy (desired_version changed prerelease nv fallback none pid) with
    | false =>
      rw [upsertStep_skip (by rw [hn]; exact hv), hn]
      simp [postNode, hn, hv]
    | true =>
      rw [upsertStep_insert h1 hv, hn]
      unfold nodeOf
      rw [lookup_cons_self]
      show (st.1 ++ [insNode ns parent_defined overlay_defined pid
        ((desired_version changed prerelease nv fallback none pid).getD "")]).get? st.1.length
          = _
      rw [list_get?_append_right]
      simp [postNode, hv]
  · cases hv : pyTruthy (desired_version changed prerelease nv fallback (some n) pid) with
    | false =>
      rw [upsertStep_skip (by rw [hn]; exact hv), hn]
      simp [postNode, hn, hv]
    | true =>
      rw [upsertStep_update h1 h2 hv, hn]
      unfold nodeOf
      rw [h1]
      show (st.1.set i (updNode parent_defined pid n
        ((desired_version changed prerelease nv fallback (some n) pid).getD ""))).get? i = _
      rw [list_get?_set_eq st.1 i _ hlt]
      simp [postNode, hv]

theorem foldInv (pids : List String) (hInv : DictInv ns st)
    (hne : ∀ x ∈ pids, x ≠ "") :
    DictInv ns (pids.foldl
      (upsertStep ns changed prerelease nv fallback parent_defined overlay_defined) st) := by
  induction pids generalizing st with
  | nil => exact hInv
  | cons a rest ih =>
    rw [List.foldl_cons]
    exact ih (stepInv hInv (hne a (by simp))) (fun x hx => hne x (by simp [hx]))

theorem foldFrame (pids : List String) (hInv : DictInv ns st)
    (hne : ∀ x ∈ pids, x ≠ "") {p : String} (hp : p ∉ pids) :
    nodeOf (pids.foldl
      (upsertStep ns changed prerelease nv fallback parent_defined overlay_defined) st) p
      = nodeOf st p := by
  induction pids generalizing st with
  | nil => rfl
  | cons a rest ih =>
    rw [List.foldl_cons]
    have hpa : p ≠ a := fun h => hp (by simp [h])
    rw [ih (stepInv hInv (hne a (by simp))) (fun x hx => hne x (by simp [hx]))
      (fun h => hp (by simp [h]))]
    exact stepFrame hInv hpa

theorem foldPost (pids : List String) (hInv : DictInv ns st)
    (hnd : pids.Nodup) (hne : ∀ x ∈ pids, x ≠ "") (hmem : pid ∈ pids) :
    nodeOf (pids.foldl
      (upsertStep ns changed prerelease nv fallback parent_defined overlay_defined) st) pid
      = postNode ns changed prerelease nv fallback parent_defined overlay_defined pid
          (nodeOf st pid) := by
  induction pids generalizing st with
  | nil => cases hmem
  | cons a rest ih =>
    rw [List.foldl_cons]
    by_cases ha : a = pid
    · subst ha
      have hnotin : a ∉ rest := (List.nodup_cons.mp hnd).1
      rw [foldFrame rest (stepInv hInv (hne a (by simp)))
        (fun x hx => hne x (by simp [hx])) hnotin]
      exact step_nodeOf_self hInv (hne a (by simp))
    · have hmem' : pid ∈ rest := by
        rcases List.mem_cons.mp hmem with h | h
        · exact absurd h.symm ha
        · exact h
      rw [ih (stepInv hInv (hne a (by simp))) (List.nodup_cons.mp hnd).2
        (fun x hx => hne x (by simp [hx])) hmem']
      rw [stepFrame hInv (fun h => ha h.symm)]

end Loop

/-! ### From the loop state to the written document -/

theorem firstIdx_some {α : Type _} (p : α → Bool) (l : List α) (i : Nat)
    (h : firstIdx p l = some i) :
    i < l.length ∧ ∃ a, l.get? i = some a ∧ p a = true := by
  induction l generalizing i with
  | nil => simp [firstIdx] at h
  | cons x xs ih =>
    by_cases hx : p x
    · simp only [firstIdx, hx, if_true] at h
      obtain rfl : (0 : Nat) = i := by simpa using h
      exact ⟨by simp, x, by simp [List.get?], hx⟩
    · simp only [firstIdx, hx, if_false] at h
      cases hf : firstIdx p xs with
      | none => rw [hf] at h; simp at h
      | some j =>
        rw [hf] at h
        obtain rfl : j + 1 = i := by simpa using h
        obtain ⟨hlt, a, hg, hp⟩ := ih j hf
        exact ⟨by simpa using Nat.succ_lt_succ hlt, a, by simpa [List.get?] using hg, hp⟩

theorem firstIdx_set {α : Type _} (p : α → Bool) (l : List α) (i : Nat) (x : α)
    (h : firstIdx p l = some i) (hx : p x = true) :
    firstIdx p (l.set i x) = some i := by
  induction l generalizing i with
  | nil => simp [firstIdx] at h
  | cons a l ih =>
    by_cases ha : p a
    · simp only [firstIdx, ha, if_true] at h
      obtain rfl : (0 : Nat) = i := by simpa using h
      simp [List.set, firstIdx, hx]
    · simp only [firstIdx, ha, if_false] at h
      cases hf : firstIdx p l with
      | none => rw [hf] at h; simp at h
      | some j =>
        rw [hf] at h
        obtain rfl : j + 1 = i := by simpa using h
        simp [List.set, firstIdx, ha, ih j hf]

theorem firstIdx_append_none {α : Type _} (p : α → Bool) (l : List α) (x : α)
    (h : firstIdx p l = none) (hx : p x = true) :
    firstIdx p (l ++ [x]) = some l.length := by
  induction l with
  | nil => simp [firstIdx, hx]
  | cons a l ih =>
    by_cases ha : p a
    · simp [firstIdx, ha] at h
    · simp only [firstIdx, ha, if_false] at h
      cases hf : firstIdx p l with
      | none => simp [firstIdx, ha, ih hf]
      | some j => rw [hf] at h; simp at h

/-- The loop state the run starts from. -/
def stInit (overlay : Option Xml) : List Xml × List (String × Nat) :=
  let root1 := ensure_parent_import_first (overlay.getD emptyRoot)
  let ns := ns_of root1.tag
  let ig := igOf ns root1.children
  (ig.children, buildExisting ns ig.children)

/-- The loop state after processing every needed identifier. -/
def stFinal (args : Args) (nv : String → Bool → Option String)
    (samples : List (Option Xml)) (root_props overlay : Option Xml) :
    List Xml × List (String × Nat) :=
  let root1 := ensure_parent_import_first (overlay.getD emptyRoot)
  let ns := ns_of root1.tag
  (pidsOf args.pfx samples).foldl
    (upsertStep ns (changedOf args) args.version nv args.allow_prerelease_fallback
      (read_defined_ids root_props) (read_defined_ids overlay))
    (stInit overlay)

/-- The document `mainRun` writes when it does not return early. -/
def outDoc (args : Args) (nv : String → Bool → Option String)
    (samples : List (Option Xml)) (root_props overlay : Option Xml) : Xml :=
  let root1 := ensure_parent_import_first (overlay.getD emptyRoot)
  let ns := ns_of root1.tag
  let rcs := root1.children
  let ig := igOf ns rcs
  Xml.elem root1.tag root1.attrs
    (XmlList.ofList ((withIg ns rcs).set (igSlot ns rcs)
      (Xml.elem ig.tag ig.attrs (XmlList.ofList (stFinal args nv samples root_props overlay).1))))

theorem mainRun_eq (args : Args) (nv : String → Bool → Option String)
    (samples : List (Option Xml)) (root_props overlay : Option Xml) :
    mainRun args nv samples root_props overlay
      = if neededOf args.pfx samples = [] ∧ changedOf args = [] then none
        else some (outDoc args nv samples root_props overlay) := rfl

theorem neededOf_ne (pfx : String) (samples : List (Option Xml)) :
    ∀ x ∈ neededOf pfx samples, x ≠ "" := by
  intro x hx
  unfold neededOf at hx
  rw [List.mem_flatMap] at hx
  obtain ⟨p, -, hmem⟩ := hx
  unfold read_coven_refs at hmem
  cases p with
  | none => simp at hmem
  | some root =>
    rw [List.mem_filterMap] at hmem
    obtain ⟨pr, -, hf⟩ := hmem
    split at hf
    next s heq =>
      split at hf
      next hcond =>
        obtain rfl := Option.some.inj hf
        exact hcond.1
      next => exact Option.noConfusion hf
    next => exact Option.noConfusion hf

theorem pidsOf_nodup (pfx : String) (samples : List (Option Xml)) :
    (pidsOf pfx samples).Nodup :=
  (List.perm_insertionSort _ _).nodup_iff.mpr (neededOf pfx samples).nodup_dedup

theorem mem_pidsOf (pfx : String) (samples : List (Option Xml)) (pid : String) :
    pid ∈ pidsOf pfx samples ↔ pid ∈ neededOf pfx samples :=
  ((List.perm_insertionSort _ _).mem_iff).trans (List.mem_dedup)

theorem pidsOf_ne (pfx : String) (samples : List (Option Xml)) :
    ∀ x ∈ pidsOf pfx samples, x ≠ "" := by
  intro x hx
  exact neededOf_ne pfx samples x ((mem_pidsOf pfx samples x).mp hx)

theorem igOf_spec (ns : Option String) (rcs : List Xml) :
    (Xml.tag (igOf ns rcs) == q ns "ItemGroup") = true ∧
    firstIdx (fun c => Xml.tag c == q ns "ItemGroup") (withIg ns rcs) = some (igSlot ns rcs) ∧
    igSlot ns rcs < (withIg ns rcs).length ∧
    (withIg ns rcs).get? (igSlot ns rcs) = some (igOf ns rcs) := by
  cases hfi : firstIdx (fun c => Xml.tag c == q ns "ItemGroup") rcs with
  | some i =>
    obtain ⟨hlt, a, hg, hp⟩ := firstIdx_some _ _ _ hfi
    have hslot : igSlot ns rcs = i := by simp [igSlot, hfi]
    have hwith : withIg ns rcs = rcs := by simp [withIg, hfi]
    have hig : igOf ns rcs = a := by
      unfold igOf
      rw [hslot, hwith, hg]
      rfl
    rw [hslot, hwith, hig]
    exact ⟨hp, hfi, hlt, hg⟩
  | none =>
    have hslot : igSlot ns rcs = rcs.length := by simp [igSlot, hfi]
    have hwith : withIg ns rcs
        = rcs ++ [Xml.elem (q ns "ItemGroup") [] XmlList.nil] := by
      simp [withIg, hfi]
    have happ : firstIdx (fun c => Xml.tag c == q ns "ItemGroup")
        (rcs ++ [Xml.elem (q ns "ItemGroup") [] XmlList.nil]) = some rcs.length :=
      firstIdx_append_none _ rcs _ hfi (by simp [Xml.tag])
    have hg : (rcs ++ [Xml.elem (q ns "ItemGroup") [] XmlList.nil]).get? rcs.length
        = some (Xml.elem (q ns "ItemGroup") [] XmlList.nil) :=
      list_get?_append_right rcs _
    have hig : igOf ns rcs = Xml.elem (q ns "ItemGroup") [] XmlList.nil := by
      unfold igOf
      rw [hslot, hwith, hg]
      rfl
    rw [hslot, hwith, hig]
    refine ⟨by simp [Xml.tag], happ, by simp, hg⟩

theorem Xml.tag_elem (t : String) (a : List (String × String)) (k : XmlList) :
    Xml.tag (Xml.elem t a k) = t := rfl

theorem igOf_eq_of_firstIdx (ns : Option String) (l : List Xml) (i : Nat) (x : Xml)
    (hfi : firstIdx (fun c => Xml.tag c == q ns "ItemGroup") l = some i)
    (hg : l.get? i = some x) :
    igSlot ns l = i ∧ withIg ns l = l ∧ igOf ns l = x := by
  have hslot : igSlot ns l = i := by
    unfold igSlot
    rw [hfi]
    rfl
  have hwith : withIg ns l = l := by
    unfold withIg
    rw [hfi]
    rfl
  refine ⟨hslot, hwith, ?_⟩
  unfold igOf
  rw [hslot, hwith, hg]
  rfl

theorem docPin_def (doc : Xml) (pid : String) :
    docPin doc pid
      = ((buildExisting (ns_of doc.tag)
          (igOf (ns_of doc.tag) doc.children).children).lookup pid).bind
        fun i => (igOf (ns_of doc.tag) doc.children).children.get? i := rfl

theorem docPin_elem (t : String) (a : List (String × String)) (rcs stF1 : List Xml)
    (dict : List (String × Nat))
    (hinv : ∀ p', dict.lookup p' = lastKeyIdx (ns_of t) p' stF1) (pid : String) :
    docPin (Xml.elem t a (XmlList.ofList
        ((withIg (ns_of t) rcs).set (igSlot (ns_of t) rcs)
          (Xml.elem (Xml.tag (igOf (ns_of t) rcs)) (Xml.attrs (igOf (ns_of t) rcs))
            (XmlList.ofList stF1))))) pid
      = (dict.lookup pid).bind fun i => stF1.get? i := by
  obtain ⟨hp, hfi, hlt, -⟩ := igOf_spec (ns_of t) rcs
  have hfi2 : firstIdx (fun c => Xml.tag c == q (ns_of t) "ItemGroup")
      ((withIg (ns_of t) rcs).set (igSlot (ns_of t) rcs)
        (Xml.elem (Xml.tag (igOf (ns_of t) rcs)) (Xml.attrs (igOf (ns_of t) rcs))
          (XmlList.ofList stF1)))
      = some (igSlot (ns_of t) rcs) :=
    firstIdx_set _ _ _ _ hfi hp
  have hget2 : ((withIg (ns_of t) rcs).set (igSlot (ns_of t) rcs)
      (Xml.elem (Xml.tag (igOf (ns_of t) rcs)) (Xml.attrs (igOf (ns_of t) rcs))
        (XmlList.ofList stF1))).get? (igSlot (ns_of t) rcs)
      = some (Xml.elem (Xml.tag (igOf (ns_of t) rcs)) (Xml.attrs (igOf (ns_of t) rcs))
        (XmlList.ofList stF1)) :=
    list_get?_set_eq _ _ _ hlt
  obtain ⟨-, -, hgD⟩ := igOf_eq_of_firstIdx (ns_of t) _ _ _ hfi2 hget2
  have hbe : (buildExisting (ns_of t) stF1).lookup pid = dict.lookup pid := by
    rw [buildExisting_lookup, hinv]
  rw [docPin_def, Xml.tag_elem, Xml.children_mk, hgD, Xml.children_mk, hbe]

theorem ensure_tag (r : Xml) : (ensure_parent_import_first r).tag = r.tag := by
  unfold ensure_parent_import_first
  by_cases h : has_parent_import (ns_of r.tag) r = true
  · rw [if_pos h]
  · rw [if_neg h]
    exact Xml.tag_elem _ _ _

theorem ensure_children (r : Xml) :
    (ensure_parent_import_first r).children = r.children ∨
    (ensure_parent_import_first r).children
      = parent_import_node (ns_of r.tag) :: r.children := by
  unfold ensure_parent_import_first
  by_cases h : has_parent_import (ns_of r.tag) r = true
  · rw [if_pos h]
    exact Or.inl rfl
  · rw [if_neg h]
    exact Or.inr (Xml.children_mk _ _ _)

theorem q_inj (ns : Option String) (a b : String) (h : q ns a = q ns b) : a = b := by
  cases ns with
  | none => exact h
  | some n =>
    obtain ⟨nd⟩ := n
    obtain ⟨ad⟩ := a
    obtain ⟨bd⟩ := b
    unfold q at h
    injection h with hd
    have := List.append_cancel_left hd
    rw [this]

theorem q_Import_ne (ns : Option String) : q ns "Import" ≠ q ns "ItemGroup" := by
  intro h
  have := q_inj ns "Import" "ItemGroup" h
  exact absurd this (by decide)

theorem igOf_none (ns : Option String) (l : List Xml)
    (hfi : firstIdx (fun c => Xml.tag c == q ns "ItemGroup") l = none) :
    igOf ns l = Xml.elem (q ns "ItemGroup") [] XmlList.nil := by
  have hslot : igSlot ns l = l.length := by
    unfold igSlot
    rw [hfi]
    rfl
  have hwith : withIg ns l = l ++ [Xml.elem (q ns "ItemGroup") [] XmlList.nil] := by
    unfold withIg
    rw [hfi]
    rfl
  unfold igOf
  rw [hslot, hwith, list_get?_append_right]
  rfl

theorem igOf_cons_skip (ns : Option String) (x : Xml) (cs : List Xml)
    (hx : (Xml.tag x == q ns "ItemGroup") = false) :
    igOf ns (x :: cs) = igOf ns cs := by
  cases hfi : firstIdx (fun c => Xml.tag c == q ns "ItemGroup") cs with
  | some i =>
    obtain ⟨hlt, a2, hg, hp2⟩ := firstIdx_some _ _ _ hfi
    obtain ⟨-, -, hi1⟩ := igOf_eq_of_firstIdx ns cs i a2 hfi hg
    have hfi' : firstIdx (fun c => Xml.tag c == q ns "ItemGroup") (x :: cs)
        = some (i + 1) := by
      simp [firstIdx, hx, hfi]
    have hg' : (x :: cs).get? (i + 1) = some a2 := by
      simpa [List.get?] using hg
    obtain ⟨-, -, hi2⟩ := igOf_eq_of_firstIdx ns (x :: cs) (i + 1) a2 hfi' hg'
    rw [hi1, hi2]
  | none =>
    have hfi' : firstIdx (fun c => Xml.tag c == q ns "ItemGroup") (x :: cs) = none := by
      simp [firstIdx, hx, hfi]
    rw [igOf_none ns _ hfi', igOf_none ns _ hfi]

/-- The namespace of the overlay document the run works in. -/
def overlayNs (overlay : Option Xml) : Option String :=
  ns_of (overlay.getD emptyRoot).tag

theorem ensure_ns (overlay : Option Xml) :
    ns_of (ensure_parent_import_first (overlay.getD emptyRoot)).tag = overlayNs overlay := by
  rw [ensure_tag]
  rfl

theorem stInit_nodeOf (overlay : Option Xml) (pid : String) :
    nodeOf (stInit overlay) pid = docPinO overlay pid := by
  dsimp only [stInit, docPinO]
  rw [docPin_def, ensure_tag]
  rcases ensure_children (overlay.getD emptyRoot) with hch | hch
  · rw [hch]
    rfl
  · rw [hch, igOf_cons_skip]
    · rfl
    · exact beq_eq_false_iff_ne.mpr (q_Import_ne _)

theorem stFinal_inv (args : Args) (nv : String → Bool → Option String)
    (samples : List (Option Xml)) (root_props overlay : Option Xml) :
    DictInv (ns_of (ensure_parent_import_first (overlay.getD emptyRoot)).tag)
      (stFinal args nv samples root_props overlay) := by
  dsimp only [stFinal]
  exact foldInv _ (dictInv_init _ _) (pidsOf_ne _ _)

theorem docPin_outDoc (args : Args) (nv : String → Bool → Option String)
    (samples : List (Option Xml)) (root_props overlay : Option Xml) (pid : String) :
    docPin (outDoc args nv samples root_props overlay) pid
      = nodeOf (stFinal args nv samples root_props overlay) pid := by
  have hinv := stFinal_inv args nv samples root_props overlay
  exact docPin_elem _ _ _ _ _ (fun p' => hinv p') pid

theorem run_writes (args : Args) (nv : String → Bool → Option String)
    (samples : List (Option Xml)) (root_props overlay : Option Xml) (d : Xml)
    (hrun : mainRun args nv samples root_props overlay = some d) :
    d = outDoc args nv samples root_props overlay := by
  rw [mainRun_eq] at hrun
  split at hrun
  next => exact Option.noConfusion hrun
  next => exact (Option.some.inj hrun).symm

theorem run_docPin_mem (args : Args) (nv : String → Bool → Option String)
    (samples : List (Option Xml)) (root_props overlay : Option Xml) (d : Xml)
    (hrun : mainRun args nv samples root_props overlay = some d)
    (pid : String) (hmem : pid ∈ neededOf args.pfx samples) :
    docPin d pid
      = postNode (overlayNs overlay) (changedOf args) args.version nv
          args.allow_prerelease_fallback (read_defined_ids root_props)
          (read_defined_ids overlay) pid (docPinO overlay pid) := by
  rw [run_writes args nv samples root_props overlay d hrun, docPin_outDoc]
  have hinv0 : DictInv (ns_of (ensure_parent_import_first (overlay.getD emptyRoot)).tag)
      (stInit overlay) := dictInv_init _ _
  have hpost := @foldPost (ns_of (ensure_parent_import_first (overlay.getD emptyRoot)).tag)
    (changedOf args) args.version nv args.allow_prerelease_fallback
    (read_defined_ids root_props) (read_defined_ids overlay) (stInit overlay) pid
    (pidsOf args.pfx samples) hinv0 (pidsOf_nodup _ _) (pidsOf_ne _ _)
    ((mem_pidsOf _ _ _).mpr hmem)
  dsimp only [stFinal]
  rw [hpost, stInit_nodeOf, ensure_ns]

theorem run_docPin_notmem (args : Args) (nv : String → Bool → Option String)
    (samples : List (Option Xml)) (root_props overlay : Option Xml) (d : Xml)
    (hrun : mainRun args nv samples root_props overlay = some d)
    (pid : String) (hmem : pid ∉ neededOf args.pfx samples) :
    docPin d pid = docPinO overlay pid := by
  rw [run_writes args nv samples root_props overlay d hrun, docPin_outDoc]
  have hinv0 : DictInv (ns_of (ensure_parent_import_first (overlay.getD emptyRoot)).tag)
      (stInit overlay) := dictInv_init _ _
  have hframe := @foldFrame (ns_of (ensure_parent_import_first (overlay.getD emptyRoot)).tag)
    (changedOf args) args.version nv args.allow_prerelease_fallback
    (read_defined_ids root_props) (read_defined_ids overlay) (stInit overlay)
    (pidsOf args.pfx samples) hinv0 (pidsOf_ne _ _) pid
    (fun hc => hmem ((mem_pidsOf _ _ _).mp hc))
  dsimp only [stFinal]
  rw [hframe]
  exact stInit_nodeOf overlay pid

theorem desired_of_changed {changed : List String} (prerelease : String)
    (nv : String → Bool → Option String) (fallback : Bool) (n? : Option Xml)
    {pid : String} (hmem : pid ∈ changed) :
    desired_version changed prerelease nv fallback n? pid = some prerelease := by
  unfold desired_version
  rw [if_pos hmem]

theorem desired_of_kept {changed : List String} (prerelease : String)
    (nv : String → Bool → Option String) (fallback : Bool) {n : Xml}
    {pid v : String} (hmem : pid ∉ changed)
    (hv : attrGet n.attrs "Version" = some v) (hne : v ≠ "") :
    desired_version changed prerelease nv fallback (some n) pid = some v := by
  unfold desired_version
  rw [if_neg hmem]
  show (if pyTruthy (attrGet n.attrs "Version") = true then attrGet n.attrs "Version"
    else registry_try nv fallback pid) = some v
  rw [hv]
  simp [pyTruthy, hne]

theorem Xml.attrs_elem (t : String) (a : List (String × String)) (k : XmlList) :
    Xml.attrs (Xml.elem t a k) = a := rfl

theorem Xml.kids_elem (t : String) (a : List (String × String)) (k : XmlList) :
    Xml.kids (Xml.elem t a k) = k := rfl

theorem attrGet_cons (k1 v1 : String) (rest : List (String × String)) (k : String) :
    attrGet ((k1, v1) :: rest) k = if k1 = k then some v1 else attrGet rest k := rfl

theorem attrGet_nil (k : String) : attrGet [] k = none := rfl

theorem keyOf_no_include (a : List (String × String)) (pid : String)
    (hI : attrGet a "Include" = none) (hk : keyOf a = some pid) :
    attrGet a "Update" = some pid := by
  unfold keyOf at hk
  rw [hI] at hk
  unfold pyOr at hk
  split at hk
  · exact hk
  · exact Option.noConfusion hk

theorem docPin_key (doc : Xml) (pid : String) (n : Xml) (h : docPin doc pid = some n) :
    pinKeyAt (ns_of doc.tag) n = some pid := by
  rw [docPin_def] at h
  cases hl : (buildExisting (ns_of doc.tag)
      (igOf (ns_of doc.tag) doc.children).children).lookup pid with
  | none => rw [hl] at h; exact Option.noConfusion h
  | some i =>
    rw [hl] at h
    have h' : (igOf (ns_of doc.tag) doc.children).children.get? i = some n := h
    rw [buildExisting_lookup] at hl
    obtain ⟨-, m, hg, hk⟩ := lastKeyIdx_get _ _ _ _ hl
    obtain rfl : m = n := by
      have := hg.symm.trans h'
      exact Option.some.inj this
    exact hk

theorem updNode_mode_pd (pd : List String) (pid : String) (n : Xml) (v : String)
    (hpd : pid ∈ pd) (hkey : keyOf n.attrs = some pid) :
    attrGet (updNode pd pid n v).attrs "Update" = some pid ∧
    attrGet (updNode pd pid n v).attrs "Include" = none := by
  unfold updNode
  by_cases hI : (attrGet n.attrs "Include").isSome = true
  · rw [if_pos ⟨hI, hpd⟩]
    simp only [Xml.attrs_elem]
    constructor
    · rw [attrGet_attrSet_ne _ "Version" v "Update" (by decide), attrGet_attrSet_self]
    · rw [attrGet_attrSet_ne _ "Version" v "Include" (by decide),
        attrGet_attrSet_ne _ "Update" pid "Include" (by decide), attrGet_attrPop_self]
  · have hIn : attrGet n.attrs "Include" = none := by
      cases hx : attrGet n.attrs "Include" with
      | none => rfl
      | some s => rw [hx] at hI; simp at hI
    rw [if_neg (fun hc => hI hc.1)]
    simp only [Xml.attrs_elem]
    constructor
    · rw [attrGet_attrSet_ne _ "Version" v "Update" (by decide)]
      exact keyOf_no_include n.attrs pid hIn hkey
    · rw [attrGet_attrSet_ne _ "Version" v "Include" (by decide)]
      exact hIn

theorem insNode_mode_update (ns : Option String) (pd od : List String) (pid v : String)
    (h : pid ∈ pd ∨ pid ∈ od) :
    attrGet (insNode ns pd od pid v).attrs "Update" = some pid ∧
    attrGet (insNode ns pd od pid v).attrs "Include" = none := by
  unfold insNode
  rw [if_pos h, Xml.attrs_elem]
  constructor
  · rw [attrGet_cons, if_pos rfl]
  · rw [attrGet_cons, if_neg (by decide), attrGet_cons, if_neg (by decide), attrGet_nil]

theorem insNode_mode_include (ns : Option String) (pd od : List String) (pid v : String)
    (h : ¬(pid ∈ pd ∨ pid ∈ od)) :
    attrGet (insNode ns pd od pid v).attrs "Include" = some pid ∧
    attrGet (insNode ns pd od pid v).attrs "Update" = none := by
  unfold insNode
  rw [if_neg h, Xml.attrs_elem]
  constructor
  · rw [attrGet_cons, if_pos rfl]
  · rw [attrGet_cons, if_neg (by decide), attrGet_cons, if_neg (by decide), attrGet_nil]

/-! ### Claim theorems -/

/-- C2: for every identifier in both ChangedSet and NeededSet, the version
written to its overlay pin equals the supplied prerelease string,
regardless of any existing overlay pin version, parent pin, or registry
data (the overlay, parent props and registry function are universally
quantified).  A non-empty prerelease is assumed, since `main` only writes
truthy versions. -/
theorem changed_set_precedence (args : Args) (nv : String → Bool → Option String)
    (samples : List (Option Xml)) (root_props overlay : Option Xml) (d : Xml) (pid : String)
    (hrun : mainRun args nv samples root_props overlay = some d)
    (hch : pid ∈ changedOf args) (hneed : pid ∈ neededOf args.pfx samples)
    (hpre : args.version ≠ "") :
    ∃ n, docPin d pid = some n ∧ attrGet n.attrs "Version" = some args.version := by
  rw [run_docPin_mem args nv samples root_props overlay d hrun pid hneed]
  have hd := desired_of_changed args.version nv args.allow_prerelease_fallback
    (docPinO overlay pid) hch
  dsimp only [postNode]
  rw [hd, if_pos (show pyTruthy (some args.version) = true by simp [pyTruthy, hpre])]
  cases hn : docPinO overlay pid with
  | some n =>
    exact ⟨_, rfl, updNode_version _ _ _ _⟩
  | none =>
    exact ⟨_, rfl, insNode_version _ _ _ _ _⟩

/-- C3: an identifier that already has a pin with a (truthy) version in
the overlay document and is not in ChangedSet keeps exactly that version
string across a run. -/
theorem unchanged_pin_stability (args : Args) (nv : String → Bool → Option String)
    (samples : List (Option Xml)) (root_props overlay : Option Xml) (d : Xml)
    (pid v : String) (n : Xml)
    (hrun : mainRun args nv samples root_props overlay = some d)
    (hpin : docPinO overlay pid = some n)
    (hv : attrGet n.attrs "Version" = some v) (hne : v ≠ "")
    (hch : pid ∉ changedOf args) :
    ∃ n', docPin d pid = some n' ∧ attrGet n'.attrs "Version" = some v := by
  by_cases hneed : pid ∈ neededOf args.pfx samples
  · rw [run_docPin_mem args nv samples root_props overlay d hrun pid hneed]
    have hd := desired_of_kept args.version nv args.allow_prerelease_fallback hch hv hne
    dsimp only [postNode]
    rw [hpin, hd, if_pos (show pyTruthy (some v) = true by simp [pyTruthy, hne])]
    exact ⟨_, rfl, updNode_version _ _ _ _⟩
  · rw [run_docPin_notmem args nv samples root_props overlay d hrun pid hneed, hpin]
    exact ⟨n, rfl, hv⟩

/-! ### Idempotence machinery -/

theorem pyTruthy_some (o : Option String) (h : pyTruthy o = true) :
    o = some (o.getD "") ∧ o.getD "" ≠ "" := by
  cases o with
  | none => simp [pyTruthy] at h
  | some s =>
    simp only [pyTruthy, ne_eq, decide_eq_true_eq] at h
    exact ⟨rfl, by simpa using h⟩

theorem updNode_include (pd : List String) (pid : String) (n : Xml) (v : String) :
    attrGet (updNode pd pid n v).attrs "Include"
      = if (attrGet n.attrs "Include").isSome = true ∧ pid ∈ pd then none
        else attrGet n.attrs "Include" := by
  unfold updNode
  by_cases h : (attrGet n.attrs "Include").isSome = true ∧ pid ∈ pd
  · rw [if_pos h, if_pos h]
    simp only [Xml.attrs_elem]
    rw [attrGet_attrSet_ne _ "Version" v "Include" (by decide),
      attrGet_attrSet_ne _ "Update" pid "Include" (by decide), attrGet_attrPop_self]
  · rw [if_neg h, if_neg h]
    simp only [Xml.attrs_elem]
    rw [attrGet_attrSet_ne _ "Version" v "Include" (by decide)]

theorem updNode_id (pd : List String) (pid : String) (m : Xml) (v : String)
    (hver : attrGet m.attrs "Version" = some v)
    (hflip : ¬((attrGet m.attrs "Include").isSome = true ∧ pid ∈ pd)) :
    updNode pd pid m v = m := by
  unfold updNode
  rw [if_neg hflip]
  simp only [Xml.attrs_elem]
  rw [attrSet_of_attrGet m.attrs "Version" v hver]
  exact Xml.eta m

theorem foldl_const {α β : Type _} (f : α → β → α) (st : α) (l : List β)
    (h : ∀ x ∈ l, f st x = st) : l.foldl f st = st := by
  induction l with
  | nil => rfl
  | cons a rest ih =>
    rw [List.foldl_cons, h a (by simp)]
    exact ih fun x hx => h x (by simp [hx])

section Fix

variable {ns : Option String} {changed : List String} {prerelease : String}
  {nv : String → Bool → Option String} {fallback : Bool}
  {pd od : List String}

/-- A state that already reflects the outcome of an upsert for `q'` is a
fixed point of a second upsert for `q'` (with any overlay-defined set,
since no insert happens). -/
theorem step_fix (od2 : List String) (st : List Xml × List (String × Nat))
    (q' : String) (n0 : Option Xml)
    (hInv : DictInv ns st) (_hq : q' ≠ "")
    (hnode : nodeOf st q' = postNode ns changed prerelease nv fallback pd od q' n0) :
    upsertStep ns changed prerelease nv fallback pd od2 st q' = st := by
  cases hv1 : pyTruthy (desired_version changed prerelease nv fallback n0 q') with
  | false =>
    have hpn : postNode ns changed prerelease nv fallback pd od q' n0 = n0 := by
      dsimp only [postNode]
      rw [hv1]
      simp
    rw [hpn] at hnode
    exact upsertStep_skip (by rw [hnode]; exact hv1)
  | true =>
    obtain ⟨hv1some, hvne⟩ :=
      pyTruthy_some (desired_version changed prerelease nv fallback n0 q') hv1
    cases n0 with
    | some nO =>
      have hpn : postNode ns changed prerelease nv fallback pd od q' (some nO)
          = some (updNode pd q' nO
              ((desired_version changed prerelease nv fallback (some nO) q').getD "")) := by
        dsimp only [postNode]
        rw [hv1]
        rfl
      rw [hpn] at hnode
      rcases nodeOf_cases hInv q' with ⟨-, hno⟩ | ⟨i, m', h1, h2, hn, hlt, hkey⟩
      · rw [hno] at hnode
        exact Option.noConfusion hnode
      · rw [hn] at hnode
        obtain rfl := Option.some.inj hnode
        have hverm : attrGet (Xml.attrs (updNode pd q' nO
            ((desired_version changed prerelease nv fallback (some nO) q').getD ""))) "Version"
            = some ((desired_version changed prerelease nv fallback (some nO) q').getD "") :=
          updNode_version _ _ _ _
        have hd2 : desired_version changed prerelease nv fallback
            (some (updNode pd q' nO
              ((desired_version changed prerelease nv fallback (some nO) q').getD ""))) q'
            = desired_version changed prerelease nv fallback (some nO) q' := by
          by_cases hch : q' ∈ changed
          · rw [desired_of_changed prerelease nv fallback _ hch,
              desired_of_changed prerelease nv fallback (some nO) hch]
          · rw [desired_of_kept prerelease nv fallback hch hverm hvne]
            exact hv1some.symm
        have hflip : ¬((attrGet (Xml.attrs (updNode pd q' nO
            ((desired_version changed prerelease nv fallback (some nO) q').getD ""))) "Include").isSome
              = true ∧ q' ∈ pd) := by
          rw [updNode_include]
          by_cases hc : (attrGet (Xml.attrs nO) "Include").isSome = true ∧ q' ∈ pd
          · rw [if_pos hc]
            intro hcon
            simp at hcon
          · rw [if_neg hc]
            exact hc
        have hv2 : pyTruthy (desired_version changed prerelease nv fallback
            (some (updNode pd q' nO
              ((desired_version changed prerelease nv fallback (some nO) q').getD ""))) q')
            = true := by
          rw [hd2]
          exact hv1
        rw [upsertStep_update h1 h2 hv2]
        have hupd : updNode pd q'
            (updNode pd q' nO
              ((desired_version changed prerelease nv fallback (some nO) q').getD ""))
            ((desired_version changed prerelease nv fallback
              (some (updNode pd q' nO
                ((desired_version changed prerelease nv fallback (some nO) q').getD ""))) q').getD "")
            = updNode pd q' nO
              ((desired_version changed prerelease nv fallback (some nO) q').getD "") := by
          apply updNode_id
          · rw [hd2]
            exact hverm
          · exact hflip
        rw [hupd, list_set_of_get? st.1 i _ h2]
    | none =>
      have hpn : postNode ns changed prerelease nv fallback pd od q' none
          = some (insNode ns pd od q'
              ((desired_version changed prerelease nv fallback none q').getD "")) := by
        dsimp only [postNode]
        rw [hv1]
        rfl
      rw [hpn] at hnode
      rcases nodeOf_cases hInv q' with ⟨-, hno⟩ | ⟨i, m', h1, h2, hn, hlt, hkey⟩
      · rw [hno] at hnode
        exact Option.noConfusion hnode
      · rw [hn] at hnode
        obtain rfl := Option.some.inj hnode
        have hverm : attrGet (Xml.attrs (insNode ns pd od q'
            ((desired_version changed prerelease nv fallback none q').getD ""))) "Version"
            = some ((desired_version changed prerelease nv fallback none q').getD "") :=
          insNode_version _ _ _ _ _
        have hd2 : desired_version changed prerelease nv fallback
            (some (insNode ns pd od q'
              ((desired_version changed prerelease nv fallback none q').getD ""))) q'
            = desired_version changed prerelease nv fallback none q' := by
          by_cases hch : q' ∈ changed
          · rw [desired_of_changed prerelease nv fallback _ hch,
              desired_of_changed prerelease nv fallback none hch]
          · rw [desired_of_kept prerelease nv fallback hch hverm hvne]
            exact hv1some.symm
        have hflip : ¬((attrGet (Xml.attrs (insNode ns pd od q'
            ((desired_version changed prerelease nv fallback none q').getD ""))) "Include").isSome
              = true ∧ q' ∈ pd) := by
          by_cases hu : q' ∈ pd ∨ q' ∈ od
          · rw [(insNode_mode_update ns pd od q' _ hu).2]
            intro hcon
            simp at hcon
          · intro hcon
            exact hu (Or.inl hcon.2)
        have hv2 : pyTruthy (desired_version changed prerelease nv fallback
            (some (insNode ns pd od q'
              ((desired_version changed prerelease nv fallback none q').getD ""))) q')
            = true := by
          rw [hd2]
          exact hv1
        rw [upsertStep_update h1 h2 hv2]
        have hupd : updNode pd q'
            (insNode ns pd od q'
              ((desired_version changed prerelease nv fallback none q').getD ""))
            ((desired_version changed prerelease nv fallback
              (some (insNode ns pd od q'
                ((desired_version changed prerelease nv fallback none q').getD ""))) q').getD "")
            = insNode ns pd od q'
              ((desired_version changed prerelease nv fallback none q').getD "") := by
          apply updNode_id
          · rw [hd2]
            exact hverm
          · exact hflip
        rw [hupd, list_set_of_get? st.1 i _ h2]

end Fix

theorem list_get?_mem {α : Type _} (l : List α) (j : Nat) (a : α)
    (h : l.get? j = some a) : a ∈ l := by
  induction l generalizing j with
  | nil => simp [List.get?] at h
  | cons x xs ih =>
    cases j with
    | zero =>
      obtain rfl : x = a := by simpa [List.get?] using h
      exact List.mem_cons_self x xs
    | succ j' => exact List.mem_cons_of_mem x (ih j' (by simpa [List.get?] using h))

theorem list_mem_get? {α : Type _} (l : List α) (a : α) (h : a ∈ l) :
    ∃ j, l.get? j = some a := by
  induction l with
  | nil => simp at h
  | cons x xs ih =>
    rcases List.mem_cons.mp h with rfl | h'
    · exact ⟨0, rfl⟩
    · obtain ⟨j, hj⟩ := ih h'
      exact ⟨j + 1, by simpa [List.get?] using hj⟩

theorem ofList_toList : ∀ k : XmlList, XmlList.ofList k.toList = k
  | .nil => rfl
  | .cons x xs => by
    show XmlList.ofList (x :: xs.toList) = XmlList.cons x xs
    rw [XmlList.ofList, ofList_toList xs]

theorem elem_eta (x : Xml) :
    Xml.elem x.tag x.attrs (XmlList.ofList x.children) = x := by
  rw [Xml.children, ofList_toList]
  exact Xml.eta x

theorem withIg_get? (ns : Option String) (rcs : List Xml) (j : Nat) (e : Xml)
    (h : rcs.get? j = some e) : (withIg ns rcs).get? j = some e := by
  unfold withIg
  split
  · exact h
  · have hlt : j < rcs.length := by
      by_contra hge
      rw [List.get?_eq_none.mpr (Nat.le_of_not_lt hge)] at h
      exact Option.noConfusion h
    rw [list_get?_append_left _ _ j hlt]
    exact h

theorem igOf_set_slot (ns : Option String) (rcs stF1 : List Xml) :
    igSlot ns ((withIg ns rcs).set (igSlot ns rcs)
        (Xml.elem (Xml.tag (igOf ns rcs)) (Xml.attrs (igOf ns rcs)) (XmlList.ofList stF1)))
      = igSlot ns rcs ∧
    withIg ns ((withIg ns rcs).set (igSlot ns rcs)
        (Xml.elem (Xml.tag (igOf ns rcs)) (Xml.attrs (igOf ns rcs)) (XmlList.ofList stF1)))
      = (withIg ns rcs).set (igSlot ns rcs)
        (Xml.elem (Xml.tag (igOf ns rcs)) (Xml.attrs (igOf ns rcs)) (XmlList.ofList stF1)) ∧
    igOf ns ((withIg ns rcs).set (igSlot ns rcs)
        (Xml.elem (Xml.tag (igOf ns rcs)) (Xml.attrs (igOf ns rcs)) (XmlList.ofList stF1)))
      = Xml.elem (Xml.tag (igOf ns rcs)) (Xml.attrs (igOf ns rcs)) (XmlList.ofList stF1) := by
  obtain ⟨hp, hfi, hlt, -⟩ := igOf_spec ns rcs
  have hp2 : (Xml.tag (Xml.elem (Xml.tag (igOf ns rcs)) (Xml.attrs (igOf ns rcs))
      (XmlList.ofList stF1)) == q ns "ItemGroup") = true := by
    rw [Xml.tag_elem]
    exact hp
  have hfi2 := firstIdx_set _ _ _ (Xml.elem (Xml.tag (igOf ns rcs)) (Xml.attrs (igOf ns rcs))
    (XmlList.ofList stF1)) hfi hp2
  have hget2 := list_get?_set_eq (withIg ns rcs) (igSlot ns rcs)
    (Xml.elem (Xml.tag (igOf ns rcs)) (Xml.attrs (igOf ns rcs)) (XmlList.ofList stF1)) hlt
  exact igOf_eq_of_firstIdx ns _ _ _ hfi2 hget2

theorem parent_import_pred (ns : Option String) :
    (Xml.tag (parent_import_node ns) == q ns "Import"
      && strContains ((attrGet (parent_import_node ns).attrs "Project").getD "")
           "GetPathOfFileAbove") = true := by
  unfold parent_import_node
  rw [Xml.tag_elem, Xml.attrs_elem]
  simp only [beq_self_eq_true, Bool.true_and]
  rfl

theorem ensure_has (r : Xml) :
    ∃ e ∈ (ensure_parent_import_first r).children,
      (Xml.tag e == q (ns_of r.tag) "Import"
        && strContains ((attrGet e.attrs "Project").getD "") "GetPathOfFileAbove") = true := by
  unfold ensure_parent_import_first
  by_cases h : has_parent_import (ns_of r.tag) r = true
  · rw [if_pos h]
    unfold has_parent_import at h
    rw [List.any_eq_true] at h
    exact h
  · rw [if_neg h, Xml.children_mk]
    exact ⟨parent_import_node (ns_of r.tag), by simp, parent_import_pred _⟩

theorem q_PackageVersion_ne (ns : Option String) : q ns "Import" ≠ q ns "ItemGroup" :=
  q_Import_ne ns

theorem ensure_of_member (r e : Xml) (hmem : e ∈ r.children)
    (he : (Xml.tag e == q (ns_of r.tag) "Import"
      && strContains ((attrGet e.attrs "Project").getD "") "GetPathOfFileAbove") = true) :
    ensure_parent_import_first r = r := by
  unfold ensure_parent_import_first
  rw [if_pos ?hh]
  case hh =>
    unfold has_parent_import
    rw [List.any_eq_true]
    exact ⟨e, hmem, he⟩

theorem nodeOf_rebuild (ns : Option String) (st : List Xml × List (String × Nat))
    (hinv : DictInv ns st) (p : String) :
    nodeOf (st.1, buildExisting ns st.1) p = nodeOf st p := by
  show ((buildExisting ns st.1).lookup p).bind (fun i => st.1.get? i)
    = (st.2.lookup p).bind fun i => st.1.get? i
  rw [buildExisting_lookup, ← hinv p]

theorem ensure_idem_set (r : Xml) (stF1 : List Xml) (e : Xml)
    (hmem : e ∈ r.children)
    (hpred : (Xml.tag e == q (ns_of r.tag) "Import"
      && strContains ((attrGet e.attrs "Project").getD "") "GetPathOfFileAbove") = true) :
    ensure_parent_import_first
      (Xml.elem r.tag r.attrs (XmlList.ofList
        ((withIg (ns_of r.tag) r.children).set (igSlot (ns_of r.tag) r.children)
          (Xml.elem (Xml.tag (igOf (ns_of r.tag) r.children))
            (Xml.attrs (igOf (ns_of r.tag) r.children)) (XmlList.ofList stF1)))))
      = Xml.elem r.tag r.attrs (XmlList.ofList
        ((withIg (ns_of r.tag) r.children).set (igSlot (ns_of r.tag) r.children)
          (Xml.elem (Xml.tag (igOf (ns_of r.tag) r.children))
            (Xml.attrs (igOf (ns_of r.tag) r.children)) (XmlList.ofList stF1)))) := by
  obtain ⟨higtag, -, -, hget⟩ := igOf_spec (ns_of r.tag) r.children
  obtain ⟨j, hj⟩ := list_mem_get? _ e hmem
  have hj' := withIg_get? (ns_of r.tag) r.children j e hj
  have hjne : igSlot (ns_of r.tag) r.children ≠ j := by
    intro heq
    rw [heq] at hget
    have hig_e : igOf (ns_of r.tag) r.children = e :=
      Option.some.inj (hget.symm.trans hj')
    have htag1 : Xml.tag (igOf (ns_of r.tag) r.children) = q (ns_of r.tag) "ItemGroup" :=
      eq_of_beq higtag
    have htag2 : Xml.tag e = q (ns_of r.tag) "Import" := by
      have hp2 := hpred
      rw [Bool.and_eq_true] at hp2
      exact eq_of_beq hp2.1
    rw [hig_e, htag2] at htag1
    exact q_Import_ne (ns_of r.tag) htag1
  apply ensure_of_member _ e
  · rw [Xml.children_mk]
    refine list_get?_mem _ j e ?_
    rw [list_get?_set_ne _ _ _ _ hjne]
    exact hj'
  · rw [Xml.tag_elem]
    exact hpred

/-- C1: running the reconciliation a second time with identical inputs and
unchanged registry data returns exactly the document written by the first
run, hence (`write_doc` being a function of the tree) a byte-identical
overlay file. -/
theorem reconciliation_idempotent (args : Args) (nv : String → Bool → Option String)
    (samples : List (Option Xml)) (root_props overlay : Option Xml) (d : Xml)
    (hrun : mainRun args nv samples root_props overlay = some d) :
    mainRun args nv samples root_props (some d) = some d ∧
    (mainRun args nv samples root_props (some d)).map write_doc
      = some (write_doc d) := by
  have hcond : ¬(neededOf args.pfx samples = [] ∧ changedOf args = []) := by
    intro hc
    rw [mainRun_eq, if_pos hc] at hrun
    exact Option.noConfusion hrun
  have hd : d = outDoc args nv samples root_props overlay :=
    run_writes _ _ _ _ _ _ hrun
  subst hd
  set D := outDoc args nv samples root_props overlay with hD
  have hDtag : Xml.tag D
      = Xml.tag (ensure_parent_import_first (overlay.getD emptyRoot)) := by
    rw [hD]
    dsimp only [outDoc]
    rw [Xml.tag_elem]
  have hDattrs : Xml.attrs D
      = Xml.attrs (ensure_parent_import_first (overlay.getD emptyRoot)) := by
    rw [hD]
    dsimp only [outDoc]
    rw [Xml.attrs_elem]
  have hDch : Xml.children D
      = (withIg (ns_of (ensure_parent_import_first (overlay.getD emptyRoot)).tag)
          (ensure_parent_import_first (overlay.getD emptyRoot)).children).set
        (igSlot (ns_of (ensure_parent_import_first (overlay.getD emptyRoot)).tag)
          (ensure_parent_import_first (overlay.getD emptyRoot)).children)
        (Xml.elem
          (Xml.tag (igOf (ns_of (ensure_parent_import_first (overlay.getD emptyRoot)).tag)
            (ensure_parent_import_first (overlay.getD emptyRoot)).children))
          (Xml.attrs (igOf (ns_of (ensure_parent_import_first (overlay.getD emptyRoot)).tag)
            (ensure_parent_import_first (overlay.getD emptyRoot)).children))
          (XmlList.ofList (stFinal args nv samples root_props overlay).1)) := by
    rw [hD]
    dsimp only [outDoc]
    exact Xml.children_mk _ _ _
  have hnseq : ns_of (ensure_parent_import_first (overlay.getD emptyRoot)).tag
      = ns_of (overlay.getD emptyRoot).tag := by
    rw [ensure_tag]
  obtain ⟨e, hmem, hpred⟩ := ensure_has (overlay.getD emptyRoot)
  have hpred' : (Xml.tag e
      == q (ns_of (ensure_parent_import_first (overlay.getD emptyRoot)).tag) "Import"
      && strContains ((attrGet e.attrs "Project").getD "") "GetPathOfFileAbove") = true := by
    rw [hnseq]
    exact hpred
  have hED : ensure_parent_import_first D = D := by
    rw [hD]
    dsimp only [outDoc]
    exact ensure_idem_set (ensure_parent_import_first (overlay.getD emptyRoot)) _ e hmem hpred'
  have hstF2 : stFinal args nv samples root_props (some D)
      = ((stFinal args nv samples root_props overlay).1,
          buildExisting (ns_of (ensure_parent_import_first (overlay.getD emptyRoot)).tag)
            (stFinal args nv samples root_props overlay).1) := by
    dsimp only [stFinal, stInit, Option.getD_some]
    rw [hED, hDtag, hDch]
    rw [(igOf_set_slot (ns_of (ensure_parent_import_first (overlay.getD emptyRoot)).tag)
      (ensure_parent_import_first (overlay.getD emptyRoot)).children
      (stFinal args nv samples root_props overlay).1).2.2]
    rw [Xml.children_mk]
    apply foldl_const
    intro q' hq'
    refine @step_fix (ns_of (ensure_parent_import_first (overlay.getD emptyRoot)).tag)
      (changedOf args) args.version nv args.allow_prerelease_fallback
      (read_defined_ids root_props) (read_defined_ids overlay)
      (read_defined_ids (some D))
      ((stFinal args nv samples root_props overlay).1,
        buildExisting (ns_of (ensure_parent_import_first (overlay.getD emptyRoot)).tag)
          (stFinal args nv samples root_props overlay).1)
      q' (nodeOf (stInit overlay) q') (dictInv_init _ _)
      (pidsOf_ne _ _ q' hq') ?_
    rw [nodeOf_rebuild _ _ (stFinal_inv args nv samples root_props overlay) q']
    have hfp := @foldPost (ns_of (ensure_parent_import_first (overlay.getD emptyRoot)).tag)
      (changedOf args) args.version nv args.allow_prerelease_fallback
      (read_defined_ids root_props) (read_defined_ids overlay) (stInit overlay) q'
      (pidsOf args.pfx samples) (dictInv_init _ _) (pidsOf_nodup _ _) (pidsOf_ne _ _) hq'
    exact hfp
  have hout : outDoc args nv samples root_props (some D) = D := by
    dsimp only [outDoc, Option.getD_some]
    rw [hED, hstF2, hDtag, hDch]
    rw [(igOf_set_slot (ns_of (ensure_parent_import_first (overlay.getD emptyRoot)).tag)
      (ensure_parent_import_first (overlay.getD emptyRoot)).children
      (stFinal args nv samples root_props overlay).1).2.2]
    rw [Xml.tag_elem, Xml.attrs_elem]
    rw [(igOf_set_slot (ns_of (ensure_parent_import_first (overlay.getD emptyRoot)).tag)
      (ensure_parent_import_first (overlay.getD emptyRoot)).children
      (stFinal args nv samples root_props overlay).1).2.1]
    rw [(igOf_set_slot (ns_of (ensure_parent_import_first (overlay.getD emptyRoot)).tag)
      (ensure_parent_import_first (overlay.getD emptyRoot)).children
      (stFinal args nv samples root_props overlay).1).1]
    rw [List.set_set]
    rw [hD]
    rfl
  constructor
  · rw [mainRun_eq, if_neg hcond, hout]
  · rw [mainRun_eq, if_neg hcond, hout]
    rfl

/-- C4 (amended): for an identifier in NeededSet whose version resolves
(so a pin is actually written/updated): if it is in `parentDefines` the
pin ends in `Override` mode (attribute `Update`, no `Include`); if it is
absent from `parentDefines`, absent from the overlay's own defined set,
and had no tracked overlay pin, the pin ends in `Define` mode (attribute
`Include`, no `Update`).  (The original claim's unconditional
"absent from parentDefines implies Define" is refuted by
the counterexample: a pre-existing `Update` pin keeps Override mode, and
an identifier the overlay itself defines is inserted as `Update`.) -/
theorem mode_correctness (args : Args) (nv : String → Bool → Option String)
    (samples : List (Option Xml)) (root_props overlay : Option Xml) (d : Xml)
    (pid : String)
    (hrun : mainRun args nv samples root_props overlay = some d)
    (hneed : pid ∈ neededOf args.pfx samples)
    (hres : pyTruthy (desired_version (changedOf args) args.version nv
        args.allow_prerelease_fallback (docPinO overlay pid) pid) = true) :
    (pid ∈ read_defined_ids root_props →
      ∃ n, docPin d pid = some n ∧ attrGet n.attrs "Update" = some pid ∧
        attrGet n.attrs "Include" = none) ∧
    (pid ∉ read_defined_ids root_props → pid ∉ read_defined_ids overlay →
      docPinO overlay pid = none →
      ∃ n, docPin d pid = some n ∧ attrGet n.attrs "Include" = some pid ∧
        attrGet n.attrs "Update" = none) := by
  rw [run_docPin_mem args nv samples root_props overlay d hrun pid hneed]
  constructor
  · intro hpd
    cases hn : docPinO overlay pid with
    | some n =>
      have hres' := hres
      rw [hn] at hres'
      have hkey : keyOf n.attrs = some pid := by
        have hpk := docPin_key (overlay.getD emptyRoot) pid n hn
        exact (pinKeyAt_some_elim _ _ _ hpk).2.1
      obtain ⟨hU, hI⟩ := updNode_mode_pd (read_defined_ids root_props) pid n
        ((desired_version (changedOf args) args.version nv
          args.allow_prerelease_fallback (some n) pid).getD "") hpd hkey
      refine ⟨_, ?_, hU, hI⟩
      dsimp only [postNode]
      rw [hres']
      rfl
    | none =>
      have hres' := hres
      rw [hn] at hres'
      obtain ⟨hU, hI⟩ := insNode_mode_update (overlayNs overlay)
        (read_defined_ids root_props) (read_defined_ids overlay) pid
        ((desired_version (changedOf args) args.version nv
          args.allow_prerelease_fallback none pid).getD "") (Or.inl hpd)
      refine ⟨_, ?_, hU, hI⟩
      dsimp only [postNode]
      rw [hres']
      rfl
  · intro hpd hod hpin
    have hres' := hres
    rw [hpin] at hres'
    obtain ⟨hI, hU⟩ := insNode_mode_include (overlayNs overlay)
      (read_defined_ids root_props) (read_defined_ids overlay) pid
      ((desired_version (changedOf args) args.version nv
        args.allow_prerelease_fallback none pid).getD "")
      (fun hc => hc.elim hpd hod)
    refine ⟨_, ?_, hI, hU⟩
    rw [hpin]
    dsimp only [postNode]
    rw [hres']
    rfl

/-- C7: when the scan finds no managed identifiers and the changed set is
empty, the run returns without creating or modifying the overlay file
(`mainRun` returns `none`, the no-write outcome of line 92). -/
theorem no_spurious_writes (args : Args) (nv : String → Bool → Option String)
    (samples : List (Option Xml)) (root_props overlay : Option Xml)
    (hneed : neededOf args.pfx samples = []) (hch : changedOf args = []) :
    mainRun args nv samples root_props overlay = none := by
  rw [mainRun_eq, if_pos ⟨hneed, hch⟩]

/-- C10: a sample project that fails to parse contributes the empty set of
references, and the whole run behaves exactly as if that project were not
there. -/
theorem unparsable_project_ignored (args : Args) (nv : String → Bool → Option String)
    (samples : List (Option Xml)) (root_props overlay : Option Xml) (pfx : String) :
    read_coven_refs none pfx = [] ∧
    mainRun args nv (none :: samples) root_props overlay
      = mainRun args nv samples root_props overlay :=
  ⟨rfl, rfl⟩

/-- C5 counterexample: a response body rejected by the JSON decoder raises
an exception to the caller (the `except` clause at lines 48-49 only
catches `HTTPError`, `URLError` and `TimeoutError`), instead of yielding
`None` as the claim states. -/
theorem registry_never_raises_cex :
    nuget_latest_version .malformed true = .error .decodeError ∧
    nuget_latest_version .malformed true ≠ .ok none := by
  refine ⟨rfl, ?_⟩
  intro h
  exact Except.noConfusion h

/-- C5 (amended): transport errors (HTTP error, URL error, timeout) and
empty or absent version lists yield `None` without raising, and any
successfully decoded response yields a normal result; only a malformed
response body escapes as an exception. -/
theorem registry_graceful (ps : Bool) (vs : Option (List String)) :
    nuget_latest_version .transportError ps = .ok none ∧
    (vs.getD [] = [] → nuget_latest_version (.ok vs) ps = .ok none) ∧
    ∃ r, nuget_latest_version (.ok vs) ps = .ok r := by
  refine ⟨by cases ps <;> rfl, ?_, ?_⟩
  · intro hemp
    dsimp only [nuget_latest_version]
    rw [hemp]
    cases ps <;> rfl
  · dsimp only [nuget_latest_version]
    cases ps with
    | false => exact ⟨(vs.getD []).getLast?, rfl⟩
    | true =>
      cases hl : ((vs.getD []).filter fun v => !(strContains v "-")).getLast? with
      | some s => exact ⟨some s, by rw [if_pos rfl]⟩
      | none => exact ⟨(vs.getD []).getLast?, by rw [if_pos rfl]⟩

theorem registry_graceful_witness :
    nuget_latest_version .transportError true = .ok none ∧
    nuget_latest_version (.ok (some [])) true = .ok none ∧
    ∃ r, nuget_latest_version (.ok (some [])) true = .ok r :=
  ⟨(registry_graceful true (some [])).1,
    (registry_graceful true (some [])).2.1 rfl,
    (registry_graceful true (some [])).2.2⟩

/-- The registry outcome of a package whose published versions are all
prerelease: exactly the scenario the `--allow-prerelease-fallback` flag
claims to gate. -/
def prereleaseOnly : Fetch := .ok (some ["1.0.0-rc.1"])

/-- C8: evaluation at the failing input.  With version list
`["1.0.0-rc.1"]` (no stable entry, as the `-` test shows) and the
prerelease-fallback flag disabled, the prefer-stable lookup of lines
51-54 already falls through to `versions[-1]` and returns the prerelease,
and `desired_version` resolves it for an unchanged, unpinned identifier —
whereas the flag's own help text ("If no stable exists on nuget.org,
allow prerelease fallback") and the spec say the identifier should remain
unresolved when the flag is off. -/
theorem stable_selection_bug_eval :
    nuget_latest_version prereleaseOnly true = .ok (some "1.0.0-rc.1") ∧
    strContains "1.0.0-rc.1" "-" = true ∧
    desired_version [] "9.9.9-rc.1" (nvOf fun _ => prereleaseOnly) false none "Coven.Alpha"
      = some "1.0.0-rc.1" :=
  ⟨rfl, rfl, rfl⟩

/-! ### Concrete counterexample scenarios -/

/-- A sample project referencing the managed identifier `Coven.Alpha`. -/
def sampleAlpha : Xml :=
  Xml.elem "Project" []
    (.cons (Xml.elem "ItemGroup" []
      (.cons (Xml.elem "PackageReference" [("Include", "Coven.Alpha")] .nil) .nil)) .nil)

/-- A registry with no data for any identifier. -/
def nvNone : String → Bool → Option String := fun _ _ => none

def c4Args : Args :=
  { ids := "", version := "9.9.9-rc.1", pfx := "Coven.", allow_prerelease_fallback := false }

/-- An overlay whose tracked pin for `Coven.Alpha` is already in `Update`
(Override) mode. -/
def c4Overlay : Xml :=
  Xml.elem "Project" []
    (.cons (Xml.elem "ItemGroup" []
      (.cons (Xml.elem "PackageVersion"
        [("Update", "Coven.Alpha"), ("Version", "1.0.0")] .nil) .nil)) .nil)

def c4Out : Xml :=
  (mainRun c4Args nvNone [some sampleAlpha] none (some c4Overlay)).getD emptyRoot

/-- C4 counterexample: `Coven.Alpha` is needed, the parent props file is
absent (so `parentDefines` is empty), yet after the run its pin keeps the
`Update` attribute — Override mode — falsifying "absent from parentDefines
implies Define mode". -/
theorem mode_correctness_cex :
    mainRun c4Args nvNone [some sampleAlpha] none (some c4Overlay) = some c4Out ∧
    read_defined_ids none = [] ∧
    "Coven.Alpha" ∈ neededOf c4Args.pfx [some sampleAlpha] ∧
    (docPin c4Out "Coven.Alpha").bind (fun n => attrGet n.attrs "Update")
      = some "Coven.Alpha" ∧
    (docPin c4Out "Coven.Alpha").bind (fun n => attrGet n.attrs "Include") = none := by
  refine ⟨rfl, rfl, ?_, rfl, rfl⟩
  have h : neededOf c4Args.pfx [some sampleAlpha] = ["Coven.Alpha"] := rfl
  rw [h]
  exact List.mem_singleton.mpr rfl

def c6Args : Args :=
  { ids := "Coven.Alpha", version := "9.9.9-rc.1", pfx := "Coven.",
    allow_prerelease_fallback := false }

/-- An overlay whose only pin for `Coven.Alpha` sits in the second item
group, which the upsert loop does not track. -/
def c6Overlay : Xml :=
  Xml.elem "Project" []
    (.cons (Xml.elem "ItemGroup" [] .nil)
    (.cons (Xml.elem "ItemGroup" []
      (.cons (Xml.elem "PackageVersion"
        [("Include", "Coven.Alpha"), ("Version", "1.0.0")] .nil) .nil)) .nil))

def c6Out : Xml :=
  (mainRun c6Args nvNone [some sampleAlpha] none (some c6Overlay)).getD emptyRoot

/-- The number of version-pin nodes for an identifier anywhere in a
document: `PackageVersion` descendants whose `Include` or `Update`
attribute equals the identifier. -/
def pinCount (doc : Xml) (pid : String) : Nat :=
  ((findallDesc (q (ns_of doc.tag) "PackageVersion") doc).filter
    fun n => attrGet n.attrs "Include" == some pid
      || attrGet n.attrs "Update" == some pid).length

/-- C6 counterexample: an overlay holding one pin for `Coven.Alpha` in its
second item group ends the run with two pin nodes for that identifier —
the loop only consults the first item group's direct children, so it
inserts a duplicate there. -/
theorem single_pin_invariant_cex :
    mainRun c6Args nvNone [some sampleAlpha] none (some c6Overlay) = some c6Out ∧
    pinCount c6Overlay "Coven.Alpha" = 1 ∧
    pinCount c6Out "Coven.Alpha" = 2 :=
  ⟨rfl, rfl, rfl⟩

/-! ### Frame property: untouched nodes survive the run unchanged -/

theorem list_get?_some_lt {α : Type _} (l : List α) (j : Nat) (a : α)
    (h : l.get? j = some a) : j < l.length := by
  induction l generalizing j with
  | nil => simp [List.get?] at h
  | cons x xs ih =>
    cases j with
    | zero => simp
    | succ j' =>
      have := ih j' (by simpa [List.get?] using h)
      simpa using Nat.succ_lt_succ this

theorem list_lt_get?_some {α : Type _} (l : List α) (j : Nat) (h : j < l.length) :
    ∃ a, l.get? j = some a := by
  induction l generalizing j with
  | nil => simp at h
  | cons x xs ih =>
    cases j with
    | zero => exact ⟨x, rfl⟩
    | succ j' =>
      obtain ⟨a, ha⟩ := ih j' (by simpa using h)
      exact ⟨a, by simpa [List.get?] using ha⟩

theorem lastKeyIdx_none_elim (ns : Option String) (p : String) (cs : List Xml)
    (h : lastKeyIdx ns p cs = none) :
    ∀ j m, cs.get? j = some m → pinKeyAt ns m ≠ some p := by
  induction cs with
  | nil => intro j m hg; simp [List.get?] at hg
  | cons c cs ih =>
    have hstep : lastKeyIdx ns p (c :: cs)
        = match lastKeyIdx ns p cs with
          | some k => some (k + 1)
          | none => if pinKeyAt ns c = some p then some 0 else none := rfl
    rw [hstep] at h
    cases hl : lastKeyIdx ns p cs with
    | some k => rw [hl] at h; exact absurd h (by simp)
    | none =>
      rw [hl] at h
      intro j m hg
      cases j with
      | zero =>
        obtain rfl : c = m := by simpa [List.get?] using hg
        intro hc
        rw [if_pos hc] at h
        exact Option.noConfusion h
      | succ j' =>
        exact ih hl j' m (by simpa [List.get?] using hg)

theorem lastKeyIdx_max (ns : Option String) (p : String) (cs : List Xml) (i : Nat)
    (h : lastKeyIdx ns p cs = some i) :
    ∀ j, i < j → ∀ m, cs.get? j = some m → pinKeyAt ns m ≠ some p := by
  induction cs generalizing i with
  | nil => simp [lastKeyIdx] at h
  | cons c cs ih =>
    have hstep : lastKeyIdx ns p (c :: cs)
        = match lastKeyIdx ns p cs with
          | some k => some (k + 1)
          | none => if pinKeyAt ns c = some p then some 0 else none := rfl
    rw [hstep] at h
    cases hl : lastKeyIdx ns p cs with
    | some k =>
      rw [hl] at h
      obtain rfl : k + 1 = i := by simpa using h
      intro j hj m hg
      cases j with
      | zero => omega
      | succ j' =>
        exact ih k hl j' (by omega) m (by simpa [List.get?] using hg)
    | none =>
      rw [hl] at h
      by_cases hc : pinKeyAt ns c = some p
      · rw [if_pos hc] at h
        obtain rfl : (0 : Nat) = i := by simpa using h
        intro j hj m hg
        cases j with
        | zero => omega
        | succ j' => exact lastKeyIdx_none_elim ns p cs hl j' m (by simpa [List.get?] using hg)
      · rw [if_neg hc] at h
        exact Option.noConfusion h

theorem lastKeyIdx_intro (ns : Option String) (p : String) (cs : List Xml) (i : Nat)
    (h1 : ∃ n, cs.get? i = some n ∧ pinKeyAt ns n = some p)
    (h2 : ∀ j, i < j → ∀ m, cs.get? j = some m → pinKeyAt ns m ≠ some p) :
    lastKeyIdx ns p cs = some i := by
  induction cs generalizing i with
  | nil =>
    obtain ⟨n, hg, -⟩ := h1
    simp [List.get?] at hg
  | cons c cs ih =>
    have hstep : lastKeyIdx ns p (c :: cs)
        = match lastKeyIdx ns p cs with
          | some k => some (k + 1)
          | none => if pinKeyAt ns c = some p then some 0 else none := rfl
    cases i with
    | zero =>
      obtain ⟨n, hg, hk⟩ := h1
      obtain rfl : c = n := by simpa [List.get?] using hg
      have hnone : lastKeyIdx ns p cs = none := by
        cases hl : lastKeyIdx ns p cs with
        | none => rfl
        | some k =>
          obtain ⟨-, m, hgm, hkm⟩ := lastKeyIdx_get ns p cs k hl
          exact absurd hkm (h2 (k + 1) (by omega) m (by simpa [List.get?] using hgm))
      rw [hstep, hnone, if_pos hk]
    | succ i' =>
      obtain ⟨n, hg, hk⟩ := h1
      have hg' : cs.get? i' = some n := by simpa [List.get?] using hg
      have hcs : lastKeyIdx ns p cs = some i' := by
        apply ih i' ⟨n, hg', hk⟩
        intro j hj m hgm
        exact h2 (j + 1) (by omega) m (by simpa [List.get?] using hgm)
      rw [hstep, hcs]

section Untouched

variable {ns : Option String} {changed : List String} {prerelease : String}
  {nv : String → Bool → Option String} {fallback : Bool}
  {pd od : List String}

theorem stepUntouched (st : List Xml × List (String × Nat)) (q' : String)
    (cs0 : List Xml) (i : Nat)
    (hInv : DictInv ns st)
    (hK : ∀ j, j < cs0.length → ∃ a b, st.1.get? j = some a ∧ cs0.get? j = some b ∧
      pinKeyAt ns a = pinKeyAt ns b)
    (hH : lastKeyIdx ns q' cs0 ≠ some i) (hi : i < cs0.length) :
    (upsertStep ns changed prerelease nv fallback pd od st q').1.get? i = st.1.get? i ∧
    (∀ j, j < cs0.length →
      ∃ a b, (upsertStep ns changed prerelease nv fallback pd od st q').1.get? j = some a ∧
        cs0.get? j = some b ∧ pinKeyAt ns a = pinKeyAt ns b) := by
  rcases nodeOf_cases hInv q' with ⟨h1, hn⟩ | ⟨i', n, h1, h2, hn, hlt, hkey⟩
  · cases hv : pyTruthy (desired_version changed prerelease nv fallback none q') with
    | false =>
      rw [upsertStep_skip (by rw [hn]; exact hv)]
      exact ⟨rfl, hK⟩
    | true =>
      rw [upsertStep_insert h1 hv]
      constructor
      · obtain ⟨a, b, hga, -, -⟩ := hK i hi
        exact list_get?_append_left _ _ i (list_get?_some_lt _ _ _ hga)
      · intro j hj
        obtain ⟨a, b, hga, hgb, hab⟩ := hK j hj
        exact ⟨a, b, by rw [list_get?_append_left _ _ j (list_get?_some_lt _ _ _ hga)]; exact hga,
          hgb, hab⟩
  · cases hv : pyTruthy (desired_version changed prerelease nv fallback (some n) q') with
    | false =>
      rw [upsertStep_skip (by rw [hn]; exact hv)]
      exact ⟨rfl, hK⟩
    | true =>
      rw [upsertStep_update h1 h2 hv]
      have hkey2 : pinKeyAt ns (updNode pd q' n
          ((desired_version changed prerelease nv fallback (some n) q').getD ""))
          = pinKeyAt ns n := by
        rw [pinKeyAt_updNode ns pd q' n _ hkey, hkey]
      have hii : i' ≠ i := by
        intro he
        subst he
        have hst : lastKeyIdx ns q' st.1 = some i' := by
          have := hInv q'
          rw [h1] at this
          exact this.symm
        apply hH
        apply lastKeyIdx_intro
        · obtain ⟨a, b, hga, hgb, hab⟩ := hK i' hi
          obtain rfl : a = n := by
            have := hga.symm.trans h2
            exact Option.some.inj this
          refine ⟨b, hgb, ?_⟩
          rw [← hab]
          exact hkey
        · intro j hj m hgm
          obtain ⟨a', b', hga', hgb', hab'⟩ := hK j (list_get?_some_lt _ _ _ hgm)
          obtain rfl : b' = m := by
            have := hgb'.symm.trans hgm
            exact Option.some.inj this
          rw [← hab']
          exact lastKeyIdx_max ns q' st.1 i' hst j hj a' hga'
      constructor
      · exact list_get?_set_ne _ _ _ _ hii
      · intro j hj
        by_cases hji : j = i'
        · subst hji
          obtain ⟨a2, b2, hga2, hgb2, hab2⟩ := hK j hj
          obtain rfl : a2 = n := by
            have := hga2.symm.trans h2
            exact Option.some.inj this
          refine ⟨updNode pd q' a2
            ((desired_version changed prerelease nv fallback (some a2) q').getD ""), b2,
            ?_, hgb2, ?_⟩
          · exact list_get?_set_eq _ _ _ hlt
          · rw [hkey2]
            exact hab2
        · obtain ⟨a2, b2, hga2, hgb2, hab2⟩ := hK j hj
          exact ⟨a2, b2, by rw [list_get?_set_ne _ _ _ _ (fun h => hji h.symm)]; exact hga2,
            hgb2, hab2⟩

theorem foldUntouched (pids : List String) (st : List Xml × List (String × Nat))
    (cs0 : List Xml) (i : Nat)
    (hInv : DictInv ns st) (hne : ∀ x ∈ pids, x ≠ "")
    (hK : ∀ j, j < cs0.length → ∃ a b, st.1.get? j = some a ∧ cs0.get? j = some b ∧
      pinKeyAt ns a = pinKeyAt ns b)
    (hH : ∀ pid ∈ pids, lastKeyIdx ns pid cs0 ≠ some i) (hi : i < cs0.length) :
    (pids.foldl (upsertStep ns changed prerelease nv fallback pd od) st).1.get? i
      = st.1.get? i := by
  induction pids generalizing st with
  | nil => rfl
  | cons a rest ih =>
    rw [List.foldl_cons]
    obtain ⟨hpres, hK'⟩ :=
      @stepUntouched ns changed prerelease nv fallback pd od st a cs0 i hInv hK
        (hH a (by simp)) hi
    rw [ih _ (stepInv hInv (hne a (by simp))) (fun x hx => hne x (by simp [hx])) hK'
      (fun p hp => hH p (by simp [hp]))]
    exact hpres

end Untouched

theorem ensure_attrs (r : Xml) : (ensure_parent_import_first r).attrs = r.attrs := by
  unfold ensure_parent_import_first
  by_cases h : has_parent_import (ns_of r.tag) r = true
  · rw [if_pos h]
  · rw [if_neg h]
    exact Xml.attrs_elem _ _ _

/-- C9: across one load/mutate/write cycle, everything the reconciliation
does not touch is preserved: the root's tag and attributes are unchanged;
the only change at the root level is the possible insertion of the
parent import as first child (plus a fresh item group when none
existed); every
root child other than the managed item-group slot is exactly the element
that was there after that insertion; and inside the managed item group
every child whose position is not the tracked pin of some processed
identifier is exactly preserved (serialization is a function of the tree,
so preserved subtrees re-serialize byte-for-byte). -/
theorem untouched_nodes_preserved (args : Args) (nv : String → Bool → Option String)
    (samples : List (Option Xml)) (root_props : Option Xml) (root0 d : Xml)
    (hrun : mainRun args nv samples root_props (some root0) = some d) :
    ((ensure_parent_import_first root0).children = root0.children ∨
      (ensure_parent_import_first root0).children
        = parent_import_node (ns_of root0.tag) :: root0.children) ∧
    d.tag = root0.tag ∧ d.attrs = root0.attrs ∧
    (∀ j, j ≠ igSlot (ns_of root0.tag) (ensure_parent_import_first root0).children →
      d.children.get? j
        = (withIg (ns_of root0.tag) (ensure_parent_import_first root0).children).get? j) ∧
    (∀ i, i < (igOf (ns_of root0.tag)
        (ensure_parent_import_first root0).children).children.length →
      (∀ pid ∈ pidsOf args.pfx samples,
        lastKeyIdx (ns_of root0.tag) pid
          (igOf (ns_of root0.tag) (ensure_parent_import_first root0).children).children
          ≠ some i) →
      (igOf (ns_of root0.tag) d.children).children.get? i
        = (igOf (ns_of root0.tag)
            (ensure_parent_import_first root0).children).children.get? i) := by
  have hd := run_writes _ _ _ _ _ _ hrun
  subst hd
  have hnseq : ns_of (ensure_parent_import_first root0).tag = ns_of root0.tag := by
    rw [ensure_tag]
  have hDtag : (outDoc args nv samples root_props (some root0)).tag = root0.tag := by
    dsimp only [outDoc, Option.getD_some]
    rw [Xml.tag_elem, ensure_tag]
  have hDattrs : (outDoc args nv samples root_props (some root0)).attrs = root0.attrs := by
    dsimp only [outDoc, Option.getD_some]
    rw [Xml.attrs_elem, ensure_attrs]
  have hDch : (outDoc args nv samples root_props (some root0)).children
      = (withIg (ns_of root0.tag) (ensure_parent_import_first root0).children).set
        (igSlot (ns_of root0.tag) (ensure_parent_import_first root0).children)
        (Xml.elem
          (Xml.tag (igOf (ns_of root0.tag) (ensure_parent_import_first root0).children))
          (Xml.attrs (igOf (ns_of root0.tag) (ensure_parent_import_first root0).children))
          (XmlList.ofList (stFinal args nv samples root_props (some root0)).1)) := by
    dsimp only [outDoc, Option.getD_some]
    rw [Xml.children_mk, hnseq]
  refine ⟨ensure_children root0, hDtag, hDattrs, ?_, ?_⟩
  · intro j hj
    rw [hDch]
    exact list_get?_set_ne _ _ _ _ fun h => hj h.symm
  · intro i hi hH
    rw [hDch]
    rw [(igOf_set_slot (ns_of root0.tag) (ensure_parent_import_first root0).children
      (stFinal args nv samples root_props (some root0)).1).2.2]
    rw [Xml.children_mk]
    dsimp only [stFinal, stInit, Option.getD_some]
    rw [hnseq]
    refine foldUntouched _ _ _ i (dictInv_init _ _) (pidsOf_ne _ _) ?_ hH hi
    intro j hj
    obtain ⟨a, ha⟩ := list_lt_get?_some _ j hj
    exact ⟨a, a, ha, ha, rfl⟩

/-! ### Pin counting: the amended single-pin invariant -/

/-- Number of nodes in a list whose `Include` or `Update` attribute equals
the identifier (the counting core of `pinCount`). -/
def pinFilter (pid : String) (l : List Xml) : Nat :=
  (l.filter fun n => attrGet n.attrs "Include" == some pid
    || attrGet n.attrs "Update" == some pid).length

/-- Pin count over the proper descendants of a children list. -/
def pinCntL (t pid : String) (l : List Xml) : Nat :=
  pinFilter pid (findallDescL t (XmlList.ofList l))

/-- Pin count contributed by one node: itself plus its descendants. -/
def pinCntN (t pid : String) (c : Xml) : Nat :=
  (if Xml.tag c = t ∧ (attrGet c.attrs "Include" == some pid
      || attrGet c.attrs "Update" == some pid) = true then 1 else 0)
    + pinCntL t pid c.children

theorem pinFilter_append (pid : String) (l1 l2 : List Xml) :
    pinFilter pid (l1 ++ l2) = pinFilter pid l1 + pinFilter pid l2 := by
  unfold pinFilter
  rw [List.filter_append, List.length_append]

theorem pinCnt_children (t pid : String) (c : Xml) :
    pinFilter pid (findallDesc t c) = pinCntL t pid c.children := by
  cases c with
  | elem tg a k =>
    show pinFilter pid (findallDescL t k)
      = pinFilter pid (findallDescL t (XmlList.ofList (XmlList.toList k)))
    rw [ofList_toList]

theorem pinCount_eq (doc : Xml) (pid : String) :
    pinCount doc pid
      = pinCntL (q (ns_of doc.tag) "PackageVersion") pid doc.children := by
  cases doc with
  | elem tg a k =>
    show pinFilter pid (findallDescL (q (ns_of tg) "PackageVersion") k)
      = pinFilter pid (findallDescL (q (ns_of tg) "PackageVersion")
          (XmlList.ofList (XmlList.toList k)))
    rw [ofList_toList]

theorem pinCntL_nil (t pid : String) : pinCntL t pid [] = 0 := rfl

theorem pinCntL_cons (t pid : String) (c : Xml) (cs : List Xml) :
    pinCntL t pid (c :: cs) = pinCntN t pid c + pinCntL t pid cs := by
  have h1 : pinCntL t pid (c :: cs)
      = pinFilter pid (((if Xml.tag c = t then [c] else [])
          ++ findallDesc t c) ++ findallDescL t (XmlList.ofList cs)) := rfl
  rw [h1, pinFilter_append, pinFilter_append, pinCnt_children]
  have h2 : pinFilter pid (findallDescL t (XmlList.ofList cs)) = pinCntL t pid cs := rfl
  rw [h2]
  unfold pinCntN
  have hA : pinFilter pid (if Xml.tag c = t then [c] else [])
      = (if Xml.tag c = t ∧ (attrGet c.attrs "Include" == some pid
          || attrGet c.attrs "Update" == some pid) = true then 1 else 0) := by
    by_cases ht : Xml.tag c = t
    · rw [if_pos ht]
      by_cases hm : (attrGet c.attrs "Include" == some pid
          || attrGet c.attrs "Update" == some pid) = true
      · rw [if_pos ⟨ht, hm⟩]
        simp [pinFilter, List.filter, hm]
      · rw [if_neg (fun h => hm h.2)]
        simp [pinFilter, List.filter, hm]
    · rw [if_neg ht, if_neg (fun h => ht h.1)]
      simp [pinFilter]
  rw [hA]

theorem pinCntL_append (t pid : String) (l1 l2 : List Xml) :
    pinCntL t pid (l1 ++ l2) = pinCntL t pid l1 + pinCntL t pid l2 := by
  induction l1 with
  | nil =>
    rw [List.nil_append, pinCntL_nil, Nat.zero_add]
  | cons c cs ih =>
    rw [List.cons_append, pinCntL_cons, pinCntL_cons, ih, Nat.add_assoc]

theorem pinCntL_set_le (t pid : String) (l : List Xml) (i : Nat) (u w : Xml)
    (hget : l.get? i = some w) (hle : pinCntN t pid u ≤ pinCntN t pid w) :
    pinCntL t pid (l.set i u) ≤ pinCntL t pid l := by
  induction l generalizing i with
  | nil => simp [List.get?] at hget
  | cons c cs ih =>
    cases i with
    | zero =>
      obtain rfl : c = w := by simpa [List.get?] using hget
      show pinCntL t pid (u :: cs) ≤ pinCntL t pid (c :: cs)
      rw [pinCntL_cons, pinCntL_cons]
      exact Nat.add_le_add_right hle _
    | succ j =>
      show pinCntL t pid (c :: cs.set j u) ≤ pinCntL t pid (c :: cs)
      rw [pinCntL_cons, pinCntL_cons]
      exact Nat.add_le_add_left (ih j (by simpa [List.get?] using hget)) _

theorem pinCntN_other (t pid : String) (c : Xml) (htag : c.tag ≠ t)
    (hkids : c.children = []) : pinCntN t pid c = 0 := by
  unfold pinCntN
  rw [hkids, pinCntL_nil, if_neg (fun h => htag h.1)]

/-- The attribute dictionary after `updNode`: either only `Version`
changed, or `Include` was popped and `Update` set to the identifier. -/
theorem updNode_attrGet (pd : List String) (p2 : String) (n : Xml) (v : String) :
    (attrGet (updNode pd p2 n v).attrs "Include" = attrGet n.attrs "Include" ∧
      attrGet (updNode pd p2 n v).attrs "Update" = attrGet n.attrs "Update") ∨
    (attrGet (updNode pd p2 n v).attrs "Include" = none ∧
      attrGet (updNode pd p2 n v).attrs "Update" = some p2) := by
  dsimp only [updNode]
  by_cases h : (attrGet n.attrs "Include").isSome ∧ p2 ∈ pd
  · rw [if_pos h]
    dsimp only [Xml.attrs]
    refine Or.inr ⟨?_, ?_⟩
    · rw [attrGet_attrSet_ne _ "Version" v "Include" (by decide),
        attrGet_attrSet_ne _ "Update" p2 "Include" (by decide),
        attrGet_attrPop_self]
    · rw [attrGet_attrSet_ne _ "Version" v "Update" (by decide),
        attrGet_attrSet_self]
  · rw [if_neg h]
    dsimp only [Xml.attrs]
    refine Or.inl ⟨?_, ?_⟩
    · rw [attrGet_attrSet_ne _ "Version" v "Include" (by decide)]
    · rw [attrGet_attrSet_ne _ "Version" v "Update" (by decide)]

/-- Updating a registered node in place never raises its pin count for any
identifier: the node was registered under its own key, so flipping
`Include` to `Update` cannot make it match a pin it did not match before. -/
theorem pinCntN_updNode (ns : Option String) (pd : List String) (p2 pid v : String)
    (n : Xml) (hk : pinKeyAt ns n = some p2) :
    pinCntN (q ns "PackageVersion") pid (updNode pd p2 n v)
      ≤ pinCntN (q ns "PackageVersion") pid n := by
  obtain ⟨ht, hkey, hp2⟩ := pinKeyAt_some_elim ns n p2 hk
  have hch : (updNode pd p2 n v).children = n.children := by
    unfold Xml.children
    rw [updNode_kids]
  unfold pinCntN
  rw [hch, updNode_tag, ht]
  refine Nat.add_le_add_right ?_ _
  have hiff : ∀ (b : Bool),
      (if q ns "PackageVersion" = q ns "PackageVersion" ∧ b = true then 1 else 0)
        = if b = true then (1 : Nat) else 0 := by
    intro b
    by_cases hb : b = true
    · rw [if_pos ⟨rfl, hb⟩, if_pos hb]
    · rw [if_neg (fun hh => hb hh.2), if_neg hb]
  rw [hiff, hiff]
  by_cases hup : (attrGet (updNode pd p2 n v).attrs "Include" == some pid
      || attrGet (updNode pd p2 n v).attrs "Update" == some pid) = true
  · rw [if_pos hup]
    have hFn : (attrGet n.attrs "Include" == some pid
        || attrGet n.attrs "Update" == some pid) = true := by
      rcases updNode_attrGet pd p2 n v with ⟨hI, hU⟩ | ⟨hI, hU⟩
      · rw [hI, hU] at hup
        exact hup
      · rw [hI, hU] at hup
        rw [Bool.or_eq_true] at hup
        have hpp : p2 = pid := by
          rcases hup with h | h
          · exact absurd (eq_of_beq h) (by simp)
          · exact Option.some.inj (eq_of_beq h)
        subst hpp
        unfold keyOf pyOr at hkey
        by_cases hu : pyTruthy (attrGet n.attrs "Update") = true
        · rw [if_pos hu] at hkey
          rw [hkey]
          simp
        · rw [if_neg hu] at hkey
          rw [hkey]
          simp
    rw [if_pos hFn]
  · rw [if_neg hup]
    exact Nat.zero_le _

/-- An inserted pin for a different identifier contributes nothing to the
count. -/
theorem pinCntN_insNode (ns : Option String) (pd od : List String) (p2 pid v : String)
    (hne : p2 ≠ pid) :
    pinCntN (q ns "PackageVersion") pid (insNode ns pd od p2 v) = 0 := by
  have h1 : ((none : Option String) == some pid) = false :=
    beq_eq_false_iff_ne.mpr (fun hc => Option.noConfusion hc)
  have h2 : ((some p2 : Option String) == some pid) = false :=
    beq_eq_false_iff_ne.mpr (fun hc => hne (Option.some.inj hc))
  have hF : (attrGet (insNode ns pd od p2 v).attrs "Include" == some pid
      || attrGet (insNode ns pd od p2 v).attrs "Update" == some pid) = false := by
    by_cases h : p2 ∈ pd ∨ p2 ∈ od
    · have ha : (insNode ns pd od p2 v).attrs = [("Update", p2), ("Version", v)] := by
        unfold insNode
        dsimp only [Xml.attrs]
        rw [if_pos h]
      rw [ha]
      show (((none : Option String) == some pid)
        || ((some p2 : Option String) == some pid)) = false
      rw [h1, h2]
      rfl
    · have ha : (insNode ns pd od p2 v).attrs = [("Include", p2), ("Version", v)] := by
        unfold insNode
        dsimp only [Xml.attrs]
        rw [if_neg h]
      rw [ha]
      show (((some p2 : Option String) == some pid)
        || ((none : Option String) == some pid)) = false
      rw [h1, h2]
      rfl
  have hch : (insNode ns pd od p2 v).children = [] := rfl
  have hneg : ¬ (Xml.tag (insNode ns pd od p2 v) = q ns "PackageVersion" ∧
      (attrGet (insNode ns pd od p2 v).attrs "Include" == some pid
        || attrGet (insNode ns pd od p2 v).attrs "Update" == some pid) = true) := by
    intro hc
    rw [hF] at hc
    exact Bool.noConfusion hc.2
  unfold pinCntN
  rw [hch, pinCntL_nil, if_neg hneg]

section PinCount

variable {ns : Option String} {changed : List String} {prerelease : String}
  {nv : String → Bool → Option String} {fallback : Bool}
  {pd od : List String}

/-- One upsert step never raises the pin count of an identifier the
`existing` dictionary already tracks, and keeps it tracked. -/
theorem stepPinCnt (st : List Xml × List (String × Nat)) (p2 pid : String)
    (hInv : DictInv ns st) (hpid : (st.2.lookup pid).isSome = true) :
    pinCntL (q ns "PackageVersion") pid
        (upsertStep ns changed prerelease nv fallback pd od st p2).1
      ≤ pinCntL (q ns "PackageVersion") pid st.1 ∧
    ((upsertStep ns changed prerelease nv fallback pd od st p2).2.lookup pid).isSome
      = true := by
  rcases nodeOf_cases hInv p2 with ⟨h1, hn⟩ | ⟨i, n, h1, h2, hn, hlt, hkey⟩
  · have hne : p2 ≠ pid := by
      intro h
      rw [h] at h1
      rw [h1] at hpid
      simp at hpid
    cases hv : pyTruthy (desired_version changed prerelease nv fallback none p2) with
    | false =>
      rw [upsertStep_skip (by rw [hn]; exact hv)]
      exact ⟨Nat.le_refl _, hpid⟩
    | true =>
      rw [upsertStep_insert h1 hv]
      constructor
      · rw [pinCntL_append, pinCntL_cons, pinCntL_nil,
          pinCntN_insNode ns pd od p2 pid _ hne]
        exact Nat.le_refl _
      · rw [lookup_cons_ne st.2 p2 pid _ (fun h => hne h.symm)]
        exact hpid
  · cases hv : pyTruthy (desired_version changed prerelease nv fallback (some n) p2) with
    | false =>
      rw [upsertStep_skip (by rw [hn]; exact hv)]
      exact ⟨Nat.le_refl _, hpid⟩
    | true =>
      rw [upsertStep_update h1 h2 hv]
      exact ⟨pinCntL_set_le _ _ _ i _ n h2 (pinCntN_updNode ns pd p2 pid _ n hkey), hpid⟩

/-- Over the whole upsert loop, the pin count of a tracked identifier
never increases. -/
theorem foldPinCnt (pids : List String) (st : List Xml × List (String × Nat))
    (pid : String) (hInv : DictInv ns st) (hne : ∀ x ∈ pids, x ≠ "")
    (hpid : (st.2.lookup pid).isSome = true) :
    pinCntL (q ns "PackageVersion") pid
        (pids.foldl (upsertStep ns changed prerelease nv fallback pd od) st).1
      ≤ pinCntL (q ns "PackageVersion") pid st.1 := by
  induction pids generalizing st with
  | nil => exact Nat.le_refl _
  | cons a rest ih =>
    rw [List.foldl_cons]
    obtain ⟨hle, hsome⟩ := @stepPinCnt ns changed prerelease nv fallback pd od st a pid
      hInv hpid
    exact Nat.le_trans
      (ih _ (stepInv hInv (hne a (by simp))) (fun x hx => hne x (by simp [hx])) hsome) hle

end PinCount

/-- C6 (amended): the single-pin invariant holds only for tracked pins.
For an identifier whose pin the run tracks — a direct `PackageVersion`
child of the first item group, the only place lines 115-118 index — the
run never adds a pin node: the total number of pin nodes for that
identifier anywhere in the document does not increase.  (For a pin living
anywhere else the invariant fails: the loop does not see it and inserts a
duplicate, as the counterexample shows.) -/
theorem tracked_pin_not_duplicated (args : Args) (nv : String → Bool → Option String)
    (samples : List (Option Xml)) (root_props : Option Xml) (root0 d : Xml) (pid : String)
    (hrun : mainRun args nv samples root_props (some root0) = some d)
    (htracked : (lastKeyIdx (ns_of root0.tag) pid
      (igOf (ns_of root0.tag) root0.children).children).isSome = true) :
    pinCount d pid ≤ pinCount root0 pid := by
  have hd := run_writes _ _ _ _ _ _ hrun
  subst hd
  have hnseq : ns_of (ensure_parent_import_first root0).tag = ns_of root0.tag := by
    rw [ensure_tag]
  have hDtag : (outDoc args nv samples root_props (some root0)).tag = root0.tag := by
    dsimp only [outDoc, Option.getD_some]
    rw [Xml.tag_elem, ensure_tag]
  have hDch : (outDoc args nv samples root_props (some root0)).children
      = (withIg (ns_of root0.tag) (ensure_parent_import_first root0).children).set
        (igSlot (ns_of root0.tag) (ensure_parent_import_first root0).children)
        (Xml.elem
          (Xml.tag (igOf (ns_of root0.tag) (ensure_parent_import_first root0).children))
          (Xml.attrs (igOf (ns_of root0.tag) (ensure_parent_import_first root0).children))
          (XmlList.ofList (stFinal args nv samples root_props (some root0)).1)) := by
    dsimp only [outDoc, Option.getD_some]
    rw [Xml.children_mk, hnseq]
  have higEq : igOf (ns_of root0.tag) (ensure_parent_import_first root0).children
      = igOf (ns_of root0.tag) root0.children := by
    rcases ensure_children root0 with h | h
    · rw [h]
    · rw [h]
      apply igOf_cons_skip
      apply beq_eq_false_iff_ne.mpr
      show q (ns_of root0.tag) "Import" ≠ q (ns_of root0.tag) "ItemGroup"
      exact q_Import_ne _
  have hfold : pinCntL (q (ns_of root0.tag) "PackageVersion") pid
      (stFinal args nv samples root_props (some root0)).1
      ≤ pinCntL (q (ns_of root0.tag) "PackageVersion") pid
        (igOf (ns_of root0.tag) (ensure_parent_import_first root0).children).children := by
    have hstF : stFinal args nv samples root_props (some root0)
        = (pidsOf args.pfx samples).foldl
            (upsertStep (ns_of root0.tag) (changedOf args) args.version nv
              args.allow_prerelease_fallback (read_defined_ids root_props)
              (read_defined_ids (some root0)))
            ((igOf (ns_of root0.tag) (ensure_parent_import_first root0).children).children,
              buildExisting (ns_of root0.tag)
                (igOf (ns_of root0.tag)
                  (ensure_parent_import_first root0).children).children) := by
      dsimp only [stFinal, stInit, Option.getD_some]
      rw [hnseq]
    rw [hstF]
    refine foldPinCnt _ _ pid (dictInv_init _ _) (pidsOf_ne _ _) ?_
    show ((buildExisting (ns_of root0.tag)
      (igOf (ns_of root0.tag)
        (ensure_parent_import_first root0).children).children).lookup pid).isSome = true
    rw [buildExisting_lookup, higEq]
    exact htracked
  calc pinCount (outDoc args nv samples root_props (some root0)) pid
      = pinCntL (q (ns_of root0.tag) "PackageVersion") pid
          (outDoc args nv samples root_props (some root0)).children := by
        rw [pinCount_eq, hDtag]
    _ ≤ pinCntL (q (ns_of root0.tag) "PackageVersion") pid
          (withIg (ns_of root0.tag) (ensure_parent_import_first root0).children) := by
        rw [hDch]
        refine pinCntL_set_le _ _ _ _ _
          (igOf (ns_of root0.tag) (ensure_parent_import_first root0).children)
          (igOf_spec (ns_of root0.tag) (ensure_parent_import_first root0).children).2.2.2 ?_
        unfold pinCntN
        rw [Xml.tag_elem, Xml.attrs_elem, Xml.children_mk]
        exact Nat.add_le_add_left hfold _
    _ = pinCntL (q (ns_of root0.tag) "PackageVersion") pid
          (ensure_parent_import_first root0).children := by
        cases hfi : firstIdx (fun c => Xml.tag c == q (ns_of root0.tag) "ItemGroup")
            (ensure_parent_import_first root0).children with
        | some i => simp [withIg, hfi]
        | none =>
          have hw : withIg (ns_of root0.tag) (ensure_parent_import_first root0).children
              = (ensure_parent_import_first root0).children
                ++ [Xml.elem (q (ns_of root0.tag) "ItemGroup") [] XmlList.nil] := by
            simp [withIg, hfi]
          have hz : pinCntN (q (ns_of root0.tag) "PackageVersion") pid
              (Xml.elem (q (ns_of root0.tag) "ItemGroup") [] XmlList.nil) = 0 := by
            refine pinCntN_other _ _ _ (fun h => ?_) rfl
            have := q_inj (ns_of root0.tag) "ItemGroup" "PackageVersion" h
            exact absurd this (by decide)
          rw [hw, pinCntL_append, pinCntL_cons, pinCntL_nil, hz]
          simp
    _ = pinCntL (q (ns_of root0.tag) "PackageVersion") pid root0.children := by
        rcases ensure_children root0 with h | h
        · rw [h]
        · have hz : pinCntN (q (ns_of root0.tag) "PackageVersion") pid
              (parent_import_node (ns_of root0.tag)) = 0 := by
            refine pinCntN_other _ _ _ (fun hq2 => ?_) rfl
            have := q_inj (ns_of root0.tag) "Import" "PackageVersion" hq2
            exact absurd this (by decide)
          rw [h, pinCntL_cons, hz]
          simp
    _ = pinCount root0 pid := (pinCount_eq root0 pid).symm

/-- Overlay with a tracked pin for `Coven.Alpha`: a direct
`PackageVersion` child of the first item group. -/
def c6bOverlay : Xml :=
  Xml.elem "Project" []
    (.cons (Xml.elem "ItemGroup" []
      (.cons (Xml.elem "PackageVersion"
        [("Include", "Coven.Alpha"), ("Version", "1.0.0")] .nil) .nil)) .nil)

def c6bOut : Xml :=
  (mainRun c6Args nvNone [some sampleAlpha] none (some c6bOverlay)).getD emptyRoot

theorem tracked_pin_not_duplicated_witness :
    mainRun c6Args nvNone [some sampleAlpha] none (some c6bOverlay) = some c6bOut ∧
    (lastKeyIdx (ns_of c6bOverlay.tag) "Coven.Alpha"
      (igOf (ns_of c6bOverlay.tag) c6bOverlay.children).children).isSome = true ∧
    pinCount c6bOut "Coven.Alpha" ≤ pinCount c6bOverlay "Coven.Alpha" :=
  ⟨rfl, rfl, tracked_pin_not_duplicated c6Args nvNone [some sampleAlpha] none
    c6bOverlay c6bOut "Coven.Alpha" rfl rfl⟩

/-! ### Concrete witnesses -/

theorem reconciliation_idempotent_witness :
    mainRun c6Args nvNone [some sampleAlpha] none (some c6bOverlay) = some c6bOut ∧
    (mainRun c6Args nvNone [some sampleAlpha] none (some c6bOut) = some c6bOut ∧
      (mainRun c6Args nvNone [some sampleAlpha] none (some c6bOut)).map write_doc
        = some (write_doc c6bOut)) :=
  ⟨rfl, reconciliation_idempotent c6Args nvNone [some sampleAlpha] none
    (some c6bOverlay) c6bOut rfl⟩

theorem changed_set_precedence_witness :
    mainRun c6Args nvNone [some sampleAlpha] none (some c6bOverlay) = some c6bOut ∧
    "Coven.Alpha" ∈ changedOf c6Args ∧
    "Coven.Alpha" ∈ neededOf c6Args.pfx [some sampleAlpha] ∧
    c6Args.version ≠ "" ∧
    ∃ n, docPin c6bOut "Coven.Alpha" = some n ∧
      attrGet n.attrs "Version" = some c6Args.version :=
  ⟨rfl, by decide, by decide, by decide,
    changed_set_precedence c6Args nvNone [some sampleAlpha] none (some c6bOverlay)
      c6bOut "Coven.Alpha" rfl (by decide) (by decide) (by decide)⟩

/-- An overlay pinning `Coven.Beta`, an identifier outside the changed
set of `c6Args`. -/
def c3Pin : Xml :=
  Xml.elem "PackageVersion" [("Include", "Coven.Beta"), ("Version", "2.0.0")] .nil

def c3Overlay : Xml :=
  Xml.elem "Project" [] (.cons (Xml.elem "ItemGroup" [] (.cons c3Pin .nil)) .nil)

def c3Out : Xml :=
  (mainRun c6Args nvNone [some sampleAlpha] none (some c3Overlay)).getD emptyRoot

theorem unchanged_pin_stability_witness :
    mainRun c6Args nvNone [some sampleAlpha] none (some c3Overlay) = some c3Out ∧
    docPinO (some c3Overlay) "Coven.Beta" = some c3Pin ∧
    attrGet c3Pin.attrs "Version" = some "2.0.0" ∧
    "Coven.Beta" ∉ changedOf c6Args ∧
    ∃ n', docPin c3Out "Coven.Beta" = some n' ∧
      attrGet n'.attrs "Version" = some "2.0.0" :=
  ⟨rfl, rfl, rfl, by decide,
    unchanged_pin_stability c6Args nvNone [some sampleAlpha] none (some c3Overlay)
      c3Out "Coven.Beta" "2.0.0" c3Pin rfl rfl rfl (by decide) (by decide)⟩

/-- An empty overlay document: the pin for the changed identifier is
brand-new and nothing defines it, so it must come out in `Include` mode. -/
def c4bOverlay : Xml := Xml.elem "Project" [] XmlList.nil

def c4bOut : Xml :=
  (mainRun c6Args nvNone [some sampleAlpha] none (some c4bOverlay)).getD emptyRoot

theorem mode_correctness_witness :
    mainRun c6Args nvNone [some sampleAlpha] none (some c4bOverlay) = some c4bOut ∧
    "Coven.Alpha" ∈ neededOf c6Args.pfx [some sampleAlpha] ∧
    pyTruthy (desired_version (changedOf c6Args) c6Args.version nvNone
      c6Args.allow_prerelease_fallback (docPinO (some c4bOverlay) "Coven.Alpha")
      "Coven.Alpha") = true ∧
    (("Coven.Alpha" ∈ read_defined_ids (none : Option Xml) →
      ∃ n, docPin c4bOut "Coven.Alpha" = some n ∧
        attrGet n.attrs "Update" = some "Coven.Alpha" ∧
        attrGet n.attrs "Include" = none) ∧
    ("Coven.Alpha" ∉ read_defined_ids (none : Option Xml) →
      "Coven.Alpha" ∉ read_defined_ids (some c4bOverlay) →
      docPinO (some c4bOverlay) "Coven.Alpha" = none →
      ∃ n, docPin c4bOut "Coven.Alpha" = some n ∧
        attrGet n.attrs "Include" = some "Coven.Alpha" ∧
        attrGet n.attrs "Update" = none)) :=
  ⟨rfl, by decide, rfl,
    mode_correctness c6Args nvNone [some sampleAlpha] none (some c4bOverlay) c4bOut
      "Coven.Alpha" rfl (by decide) rfl⟩

/-- Arguments with an empty changed set, alongside an empty sample list. -/
def c7Args : Args :=
  { ids := "", version := "1.0.0-rc.1", pfx := "Coven.",
    allow_prerelease_fallback := false }

theorem no_spurious_writes_witness :
    neededOf c7Args.pfx [] = [] ∧ changedOf c7Args = [] ∧
    mainRun c7Args nvNone [] none none = none :=
  ⟨rfl, rfl, no_spurious_writes c7Args nvNone [] none none rfl rfl⟩

theorem untouched_nodes_preserved_witness :
    mainRun c6Args nvNone [some sampleAlpha] none (some c6bOverlay) = some c6bOut ∧
    (((ensure_parent_import_first c6bOverlay).children = c6bOverlay.children ∨
      (ensure_parent_import_first c6bOverlay).children
        = parent_import_node (ns_of c6bOverlay.tag) :: c6bOverlay.children) ∧
    c6bOut.tag = c6bOverlay.tag ∧ c6bOut.attrs = c6bOverlay.attrs ∧
    (∀ j, j ≠ igSlot (ns_of c6bOverlay.tag)
        (ensure_parent_import_first c6bOverlay).children →
      c6bOut.children.get? j
        = (withIg (ns_of c6bOverlay.tag)
            (ensure_parent_import_first c6bOverlay).children).get? j) ∧
    (∀ i, i < (igOf (ns_of c6bOverlay.tag)
        (ensure_parent_import_first c6bOverlay).children).children.length →
      (∀ pid ∈ pidsOf c6Args.pfx [some sampleAlpha],
        lastKeyIdx (ns_of c6bOverlay.tag) pid
          (igOf (ns_of c6bOverlay.tag)
            (ensure_parent_import_first c6bOverlay).children).children
          ≠ some i) →
      (igOf (ns_of c6bOverlay.tag) c6bOut.children).children.get? i
        = (igOf (ns_of c6bOverlay.tag)
            (ensure_parent_import_first c6bOverlay).children).children.get? i)) :=
  ⟨rfl, untouched_nodes_preserved c6Args nvNone [some sampleAlpha] none
    c6bOverlay c6bOut rfl⟩
